import Mathlib

/-!
# Data repair queue (pkg/datarepair/queue) over an ordered key-value store

A shallow embedding of `Queue.Enqueue` and `Queue.Dequeue` from
`pkg/datarepair/queue/queue.go`.  The queue keeps no state of its own besides the
mutex: every call is a function from the store before the call to the store after
it.  What the surroundings decide (the clock reading, the random token, whether a
store call fails, what the protobuf codec does) is an explicit argument.
-/

set_option autoImplicit false

/-- A byte string, Go `[]byte`: one list element per byte. -/
abbrev Bytes := List Nat

namespace pb

/-- The job record `pb.InjuredSegment` with the two fields the tests fill in: a path
and the indices (`[]int32`) of the lost pieces. -/
structure InjuredSegment where
  Path : String
  LostPieces : List Int
  deriving DecidableEq, Repr

/-- The zero value `pb.InjuredSegment{}`. -/
def InjuredSegment.zero : InjuredSegment := ⟨"", []⟩

/-- Modelled from the spec: the job record encoding (`proto.Marshal` and
`proto.Unmarshal` on `pb.InjuredSegment`), which the queue treats as a black box.
Both directions may fail with an error message. -/
structure Codec where
  Marshal : InjuredSegment → Except String Bytes
  Unmarshal : Bytes → Except String InjuredSegment

/-- The codec round-trips the job `j`: marshalling succeeds and unmarshalling the
bytes gives `j` back. -/
def Codec.RoundTrips (c : Codec) (j : InjuredSegment) : Prop :=
  ∃ b, c.Marshal j = Except.ok b ∧ c.Unmarshal b = Except.ok j

end pb

namespace storage

/-- Modelled from the spec: the order of store keys, byte-wise lexicographic
(`bytes.Compare(a, b) < 0`); a proper prefix is smaller. -/
def Less : Bytes → Bytes → Bool
  | [], [] => false
  | [], _ :: _ => true
  | _ :: _, [] => false
  | a :: as, b :: bs => if a < b then true else if b < a then false else Less as bs

/-- Modelled from the spec: an entry of the store as the listing returns it
(`storage.ListItem`), key and value. -/
abbrev ListItem := Bytes × Bytes

/-- Modelled from the spec: the contents of the ordered key-value store
(`storage.KeyValueStore`), an association list; the first entry with a key is the
one the key maps to. -/
abbrev Store := List ListItem

/-- Modelled from the spec: the value a key of the store maps to. -/
def get (db : Store) (key : Bytes) : Option Bytes :=
  match db with
  | [] => none
  | e :: rest => if e.1 = key then some e.2 else get rest key

/-- Modelled from the spec: the store without the key (what a successful `Delete`
leaves). -/
def erase (db : Store) (key : Bytes) : Store :=
  db.filter (fun e => decide (e.1 ≠ key))

/-- Modelled from the spec: the store with `key` mapped to `value`, replacing what
it mapped to (what a successful `Put` leaves). -/
def insert (db : Store) (key value : Bytes) : Store :=
  (key, value) :: erase db key

/-- Modelled from the spec: the entry of the store with the smallest key. -/
def first : Store → Option ListItem
  | [] => none
  | e :: rest =>
    match first rest with
    | none => some e
    | some m => if Less m.1 e.1 then some m else some e

/-- Modelled from the spec: the `limit` smallest-keyed entries of the store in
ascending key order. -/
def smallest : Nat → Store → List ListItem
  | 0, _ => []
  | n + 1, db =>
    match first db with
    | none => []
    | some e => e :: smallest n (erase db e.1)

/-- A call the queue issues on the store. -/
inductive Call where
  | ListV2 (limit : Nat)
  | Put (key value : Bytes)
  | Delete (key : Bytes)
  deriving DecidableEq, Repr

/-- Modelled from the spec: `Put(key, value) -> error`.  `fault` is the error the
store answers with when it fails; a failing call leaves the store as it was. -/
def Put (fault : Option String) (db : Store) (key value : Bytes) :
    Option String × Store :=
  match fault with
  | some err => (some err, db)
  | none => (none, insert db key value)

/-- Modelled from the spec: `Delete(key) -> error`.  `fault` is the error the store
answers with when it fails; a failing call leaves the store as it was. -/
def Delete (fault : Option String) (db : Store) (key : Bytes) :
    Option String × Store :=
  match fault with
  | some err => (some err, db)
  | none => (none, erase db key)

/-- Modelled from the spec: the ordered listing
`ListV2(db, ListOptions{IncludeValue: true, Limit: limit, Recursive: true})`,
which returns the `limit` smallest-keyed entries with their values, or an error. -/
def ListV2 (fault : Option String) (db : Store) (limit : Nat) :
    Except String (List ListItem) :=
  match fault with
  | some err => Except.error err
  | none => Except.ok (smallest limit db)

end storage

namespace queue

open pb storage

/-- The conversion `uint64(x)` of an `int64`: the value modulo `2^64`. -/
def toUint64 (x : Int) : Nat := (x % 18446744073709551616).toNat

/-- The 8 bytes `binary.BigEndian.PutUint64` writes for `v`. -/
def PutUint64 (v : Nat) : Bytes :=
  [v / 2 ^ 56 % 256, v / 2 ^ 48 % 256, v / 2 ^ 40 % 256, v / 2 ^ 32 % 256,
   v / 2 ^ 24 % 256, v / 2 ^ 16 % 256, v / 2 ^ 8 % 256, v % 256]

/-- The error `queueError.New(msg)` of class "data repair queue error". -/
def queueError (msg : String) : String := "data repair queue error: " ++ msg

/-- What the surroundings decide during one `Enqueue`. -/
structure EnqueueEnv where
  /-- The clock reading `time.Now().UnixNano()`. -/
  now : Int
  /-- The bytes `rand.Read` wrote into the 4-byte token buffer. -/
  token : Bytes
  /-- The error of `rand.Read`, if any. -/
  randErr : Option String
  /-- The error of `q.db.Put`, if the store fails. -/
  putErr : Option String

/-- What the surroundings decide during one `Dequeue`. -/
structure DequeueEnv where
  /-- The error of `storage.ListV2`, if the store fails. -/
  listErr : Option String
  /-- The error of `q.db.Delete`, if the store fails. -/
  deleteErr : Option String

/-- Outcome of `Enqueue`: the returned error, the store afterwards, the store
calls issued. -/
structure EnqueueResult where
  err : Option String
  db : Store
  calls : List Call

/-- Outcome of `Dequeue`: the returned job and error, the store afterwards, the
store calls issued. -/
structure DequeueResult where
  seg : InjuredSegment
  err : Option String
  db : Store
  calls : List Call

/-- The key `Enqueue` builds: the clock reading as 8 big-endian bytes, then the
token. -/
def dateTime (now : Int) (token : Bytes) : Bytes :=
  PutUint64 (toUint64 now) ++ token

/-- `Queue.Enqueue`. -/
def Enqueue (c : Codec) (env : EnqueueEnv) (qi : InjuredSegment) (db : Store) :
    EnqueueResult :=
  match env.randErr with
  | some err => ⟨some (queueError ("error creating random token " ++ err)), db, []⟩
  | none =>
    let key := dateTime env.now env.token
    match c.Marshal qi with
    | Except.error err =>
      ⟨some (queueError ("error marshalling injured seg " ++ err)), db, []⟩
    | Except.ok val =>
      match Put env.putErr db key val with
      | (some err, db1) =>
        ⟨some (queueError ("error adding injured seg to queue " ++ err)), db1,
          [Call.Put key val]⟩
      | (none, db1) => ⟨none, db1, [Call.Put key val]⟩

/-- `Queue.Dequeue`. -/
def Dequeue (c : Codec) (env : DequeueEnv) (db : Store) : DequeueResult :=
  match ListV2 env.listErr db 1 with
  | Except.error err =>
    ⟨InjuredSegment.zero, some (queueError ("error getting first key " ++ err)), db,
      [Call.ListV2 1]⟩
  | Except.ok [] =>
    ⟨InjuredSegment.zero, some (queueError "empty database"), db, [Call.ListV2 1]⟩
  | Except.ok (item :: _) =>
    match c.Unmarshal item.2 with
    | Except.error err =>
      ⟨InjuredSegment.zero, some (queueError ("error unmarshalling segment " ++ err)),
        db, [Call.ListV2 1]⟩
    | Except.ok seg =>
      match Delete env.deleteErr db item.1 with
      | (some err, db1) =>
        ⟨seg, some (queueError ("error removing injured seg " ++ err)), db1,
          [Call.ListV2 1, Call.Delete item.1]⟩
      | (none, db1) => ⟨seg, none, db1, [Call.ListV2 1, Call.Delete item.1]⟩

/-- A run of `Enqueue` calls in the order the queue lock serialises them: the
error each call returns and the store after the last one. -/
def enqueueAll (c : Codec) :
    List (EnqueueEnv × InjuredSegment) → Store → List (Option String) × Store
  | [], db => ([], db)
  | (env, qi) :: rest, db =>
    let r := Enqueue c env qi db
    let rs := enqueueAll c rest r.db
    (r.err :: rs.1, rs.2)

/-- A run of `Dequeue` calls in the order the queue lock serialises them: the job
and error each call returns and the store after the last one. -/
def dequeueAll (c : Codec) :
    List DequeueEnv → Store → List (InjuredSegment × Option String) × Store
  | [], db => ([], db)
  | env :: rest, db =>
    let r := Dequeue c env db
    let rs := dequeueAll c rest r.db
    ((r.seg, r.err) :: rs.1, rs.2)

/-- The entry a successful `Enqueue` call writes: its key and the marshalled job
(no bytes when the job does not marshal). -/
def entryOf (c : Codec) (p : EnqueueEnv × InjuredSegment) : ListItem :=
  (dateTime p.1.now p.1.token,
    match c.Marshal p.2 with
    | Except.ok val => val
    | Except.error _ => [])

/-- The store after putting the entries one after the other. -/
def putAll : List ListItem → Store → Store
  | [], db => db
  | e :: rest, db => putAll rest (insert db e.1 e.2)

/-- The job an entry unmarshals to (the zero value when it does not unmarshal). -/
def decodeItem (c : Codec) (e : ListItem) : InjuredSegment :=
  match c.Unmarshal e.2 with
  | Except.ok seg => seg
  | Except.error _ => InjuredSegment.zero

/-- A small codec for concrete runs.  A job whose path has fewer than 128
characters, all below code 128, and whose piece indices lie in 0..127 is encoded as
the length of the path, the codes of its characters, then the indices; every other
job is refused.  Decoding refuses the empty string, a length byte that exceeds what
follows, and any byte of 128 or more after the length byte. -/
def sampleCodec : Codec where
  Marshal j :=
    if j.Path.length < 128 ∧ j.Path.toList.all (fun ch => decide (ch.toNat < 128)) ∧
        j.LostPieces.all (fun p => decide (0 ≤ p ∧ p < 128)) then
      Except.ok
        (j.Path.length :: (j.Path.toList.map Char.toNat ++ j.LostPieces.map Int.toNat))
    else Except.error "unsupported segment"
  Unmarshal b :=
    match b with
    | [] => Except.error "unexpected end"
    | n :: rest =>
      if n ≤ rest.length ∧ rest.all (fun x => decide (x < 128)) then
        Except.ok ⟨String.mk ((rest.take n).map Char.ofNat), (rest.drop n).map Int.ofNat⟩
      else Except.error "illegal byte"

/-- The value `binary.BigEndian.Uint64` reads from a byte string: its bytes as
base-256 digits, most significant first. -/
def Uint64 (b : Bytes) : Nat := b.foldl (fun acc x => acc * 256 + x) 0

/-- One call on the queue: an `Enqueue` of a job or a `Dequeue`, with what the
surroundings decide during it. -/
inductive Op where
  | enqueue (env : EnqueueEnv) (qi : InjuredSegment)
  | dequeue (env : DequeueEnv)

/-- The store after one call. -/
def step (c : Codec) (db : Store) : Op → Store
  | Op.enqueue env qi => (Enqueue c env qi db).db
  | Op.dequeue env => (Dequeue c env db).db

/-- The store after a sequence of calls, in the order the queue lock serialises
them. -/
def run (c : Codec) : List Op → Store → Store
  | [], db => db
  | op :: rest, db => run c rest (step c db op)

/-- Store well-formedness: every key has 12 bytes and every value unmarshals to a
job record. -/
def WellFormed (c : Codec) (db : Store) : Prop :=
  ∀ e ∈ db, e.1.length = 12 ∧ ∃ seg, c.Unmarshal e.2 = Except.ok seg

/-- What an `Enqueue` call is given by its surroundings: `rand.Read` fills the
4-byte token buffer, and the bytes the job marshals to, if it marshals, unmarshal.
A `Dequeue` call is unconstrained. -/
def Op.Regular (c : Codec) : Op → Prop
  | Op.enqueue env qi =>
    env.token.length = 4 ∧
      ∀ val, c.Marshal qi = Except.ok val → ∃ seg, c.Unmarshal val = Except.ok seg
  | Op.dequeue _ => True

/-- The key an `Enqueue` call writes under is larger than `key`; a `Dequeue` call
is unconstrained. -/
def Op.Behind (key : Bytes) : Op → Prop
  | Op.enqueue env _ => Less key (dateTime env.now env.token) = true
  | Op.dequeue _ => True

end queue

namespace auth

/-- The two gRPC status codes the authenticator answers with. -/
inductive Code where
  | Unauthenticated
  | Internal
  deriving DecidableEq, Repr

/-- An error value: a gRPC status error `status.Errorf(code, msg)`, or any other
error a handler returns. -/
inductive Error where
  | status (code : Code) (msg : String)
  | other (msg : String)
  deriving DecidableEq, Repr

/-- What the interceptor calls, in order: the API key validation with the key it
is given, the response generator, the handler. -/
inductive Event where
  | ValidateAPIKey (key : String)
  | Generate
  | Handler
  deriving DecidableEq, Repr

/-- `strings.HasPrefix(s, pre)`. -/
def HasPrefix (s pre : String) : Bool := pre.toList.isPrefixOf s.toList

/-- `strings.Join(elems, "")`. -/
def Join (elems : List String) : String := elems.foldl (fun acc x => acc ++ x) ""

/-- The unary interceptor `NewSatelliteAuthenticator(generator)` returns, applied to
one request.  `ValidateAPIKey` stands for `auth.ValidateAPIKey`, `Generate` for
`generator.Generate` (its error, if any), `md` for the result of
`metadata.FromIncomingContext(ctx)` (`none` when there is no metadata), `handler`
for the result pair of `handler(ctx, req)`.  The result is the returned pair
`(resp, err)` and the calls made. -/
def NewSatelliteAuthenticator {Resp : Type} (ValidateAPIKey : String → Bool)
    (Generate : Option String) (md : Option (String → List String))
    (FullMethod : String) (handler : Option Resp × Option Error) :
    (Option Resp × Option Error) × List Event :=
  if HasPrefix FullMethod "/pointerdb" then
    match md with
    | none => ((none, some (Error.status Code.Unauthenticated "Invalid API credential")), [])
    | some md =>
      if !ValidateAPIKey (Join (md "apikey")) then
        ((none, some (Error.status Code.Unauthenticated "Invalid API credential")),
          [Event.ValidateAPIKey (Join (md "apikey"))])
      else
        match Generate with
        | some err =>
          ((none, some (Error.status Code.Internal err)),
            [Event.ValidateAPIKey (Join (md "apikey")), Event.Generate])
        | none =>
          (handler,
            [Event.ValidateAPIKey (Join (md "apikey")), Event.Generate, Event.Handler])
  else (handler, [Event.Handler])

end auth

/-! ## The key order -/

namespace storage

theorem Less_irrefl (a : Bytes) : Less a a = false := by
  induction a with
  | nil => rfl
  | cons x xs ih => simp [Less, ih]

theorem Less_asymm : ∀ (a b : Bytes), Less a b = true → Less b a = false
  | [], [], h => by simp [Less] at h
  | [], _ :: _, _ => by simp [Less]
  | _ :: _, [], h => by simp [Less] at h
  | x :: xs, y :: ys, h => by
    have ih := Less_asymm xs ys
    simp only [Less] at h ⊢
    by_cases h1 : x < y
    · have h2 : ¬ y < x := by omega
      simp [h1, h2]
    · by_cases h2 : y < x
      · simp [h1, h2] at h
      · simp [h1, h2] at h ⊢
        exact ih h

theorem Less_trans : ∀ (a b c : Bytes), Less a b = true → Less b c = true → Less a c = true
  | [], [], _, h, _ => by simp [Less] at h
  | [], _ :: _, [], _, h => by simp [Less] at h
  | [], _ :: _, _ :: _, _, _ => by simp [Less]
  | _ :: _, [], _, h, _ => by simp [Less] at h
  | _ :: _, _ :: _, [], _, h => by simp [Less] at h
  | x :: xs, y :: ys, z :: zs, h1, h2 => by
    have ih := Less_trans xs ys zs
    simp only [Less] at h1 h2 ⊢
    by_cases hxy : x < y
    · by_cases hyz : y < z
      · have : x < z := by omega
        simp [this]
      · by_cases hzy : z < y
        · simp [hyz, hzy] at h2
        · have : x < z := by omega
          simp [this]
    · by_cases hyx : y < x
      · simp [hxy, hyx] at h1
      · simp only [hxy, hyx, if_false] at h1
        have hxy2 : x = y := by omega
        subst hxy2
        by_cases hxz : x < z
        · simp [hxz]
        · by_cases hzx : z < x
          · simp [hxz, hzx] at h2
          · simp only [hxz, hzx, if_false] at h2 ⊢
            exact ih h1 h2

theorem Less_total : ∀ (a b : Bytes), Less a b = false → Less b a = false → a = b
  | [], [], _, _ => rfl
  | [], _ :: _, h, _ => by simp [Less] at h
  | _ :: _, [], _, h => by simp [Less] at h
  | x :: xs, y :: ys, h1, h2 => by
    have ih := Less_total xs ys
    simp only [Less] at h1 h2
    by_cases hxy : x < y
    · simp [hxy] at h1
    · by_cases hyx : y < x
      · simp [hyx] at h2
      · simp only [hxy, hyx, if_false] at h1 h2
        have : x = y := by omega
        rw [this, ih h1 h2]

theorem Less_ne (a b : Bytes) (h : Less a b = true) : a ≠ b := by
  intro hab
  rw [hab, Less_irrefl] at h
  cases h

theorem Less_cons (a b : Nat) (x y : Bytes) :
    Less (a :: x) (b :: y) = true ↔ a < b ∨ (a = b ∧ Less x y = true) := by
  simp only [Less]
  by_cases h1 : a < b
  · simp [h1]
  · by_cases h2 : b < a
    · have h3 : a ≠ b := by omega
      simp [h1, h2, h3]
    · have h3 : a = b := by omega
      simp [h1, h3]

/-! ## The store -/

theorem erase_cons (e : ListItem) (rest : Store) (k : Bytes) :
    erase (e :: rest) k = if e.1 = k then erase rest k else e :: erase rest k := by
  by_cases h : e.1 = k <;> simp [erase, List.filter_cons, h]

theorem get_erase_self (db : Store) (k : Bytes) : get (erase db k) k = none := by
  induction db with
  | nil => rfl
  | cons e rest ih =>
    rw [erase_cons]
    by_cases h : e.1 = k
    · rw [if_pos h]; exact ih
    · rw [if_neg h]; simp only [get, if_neg h]; exact ih

theorem get_erase_ne (db : Store) (k k1 : Bytes) (hk : k1 ≠ k) :
    get (erase db k) k1 = get db k1 := by
  induction db with
  | nil => rfl
  | cons e rest ih =>
    rw [erase_cons]
    by_cases h : e.1 = k
    · have h1 : e.1 ≠ k1 := fun h2 => hk (h2.symm.trans h)
      rw [if_pos h]; simp only [get, if_neg h1]; exact ih
    · rw [if_neg h]
      by_cases h1 : e.1 = k1
      · simp only [get, if_pos h1]
      · simp only [get, if_neg h1]; exact ih

theorem get_insert_self (db : Store) (k v : Bytes) : get (insert db k v) k = some v := by
  simp [insert, get]

theorem get_insert_ne (db : Store) (k v k1 : Bytes) (hk : k1 ≠ k) :
    get (insert db k v) k1 = get db k1 := by
  have h1 : k ≠ k1 := fun h => hk h.symm
  simp only [insert, get, if_neg h1]
  exact get_erase_ne db k k1 hk

theorem first_eq_none (db : Store) : first db = none ↔ db = [] := by
  cases db with
  | nil => simp [first]
  | cons e rest =>
    simp only [first]
    cases first rest with
    | none => simp
    | some m => by_cases h : Less m.1 e.1 = true <;> simp [h]

theorem first_mem (db : Store) (e : ListItem) (h : first db = some e) : e ∈ db := by
  induction db generalizing e with
  | nil => simp [first] at h
  | cons e0 rest ih =>
    simp only [first] at h
    cases hr : first rest with
    | none =>
      rw [hr] at h
      simp at h
      simp [h]
    | some m =>
      rw [hr] at h
      by_cases hl : Less m.1 e0.1 = true
      · simp [hl] at h
        subst h
        exact List.mem_cons_of_mem _ (ih m hr)
      · simp [hl] at h
        simp [h]

theorem first_min (db : Store) (e : ListItem) (h : first db = some e) :
    ∀ x ∈ db, Less x.1 e.1 = false := by
  induction db generalizing e with
  | nil => simp [first] at h
  | cons e0 rest ih =>
    simp only [first] at h
    cases hr : first rest with
    | none =>
      rw [hr] at h
      simp at h
      subst h
      have : rest = [] := (first_eq_none rest).1 hr
      subst this
      intro x hx
      simp at hx
      subst hx
      exact Less_irrefl _
    | some m =>
      rw [hr] at h
      by_cases hl : Less m.1 e0.1 = true
      · simp [hl] at h
        subst h
        intro x hx
        rcases List.mem_cons.1 hx with hx | hx
        · subst hx
          exact Less_asymm _ _ hl
        · exact ih m hr x hx
      · simp [hl] at h
        subst h
        intro x hx
        rcases List.mem_cons.1 hx with hx | hx
        · subst hx
          exact Less_irrefl _
        · have hxm := ih m hr x hx
          cases hxe : Less x.1 e0.1 with
          | false => rfl
          | true =>
            exfalso
            cases hmx : Less m.1 x.1 with
            | true => exact hl (Less_trans _ _ _ hmx hxe)
            | false =>
              have : x.1 = m.1 := Less_total _ _ hxm hmx
              rw [this] at hxe
              exact hl hxe

theorem first_get (db : Store) (e : ListItem) (h : first db = some e) :
    get db e.1 = some e.2 := by
  induction db generalizing e with
  | nil => simp [first] at h
  | cons e0 rest ih =>
    simp only [first] at h
    cases hr : first rest with
    | none =>
      rw [hr] at h
      simp at h
      subst h
      simp [get]
    | some m =>
      rw [hr] at h
      by_cases hl : Less m.1 e0.1 = true
      · simp [hl] at h
        subst h
        have hne : e0.1 ≠ m.1 := fun h2 => Less_ne _ _ hl h2.symm
        simpa [get, hne] using ih m hr
      · simp [hl] at h
        subst h
        simp [get]

theorem first_of_min (db : Store) (e : ListItem) (he : e ∈ db)
    (hmin : ∀ x ∈ db, x ≠ e → Less e.1 x.1 = true) : first db = some e := by
  cases hf : first db with
  | none =>
    rw [(first_eq_none db).1 hf] at he
    cases he
  | some m =>
    by_cases hme : m = e
    · rw [hme]
    · have h1 := hmin m (first_mem db m hf) hme
      have h2 := first_min db m hf e he
      rw [h1] at h2
      cases h2

theorem get_some_mem (db : Store) (k v : Bytes) (h : get db k = some v) :
    (k, v) ∈ db := by
  induction db with
  | nil => simp [get] at h
  | cons e rest ih =>
    simp only [get] at h
    by_cases hk : e.1 = k
    · rw [if_pos hk] at h
      have hv : e.2 = v := Option.some.inj h
      have : e = (k, v) := Prod.ext hk hv
      rw [this]
      exact List.mem_cons_self _ _
    · rw [if_neg hk] at h
      exact List.mem_cons_of_mem _ (ih h)

theorem first_of_smallest (db : Store) (k v : Bytes) (hget : get db k = some v)
    (hmin : ∀ x ∈ db, Less x.1 k = false) : first db = some (k, v) := by
  have hmem := get_some_mem db k v hget
  cases hf : first db with
  | none =>
    rw [(first_eq_none db).1 hf] at hmem
    cases hmem
  | some m =>
    have h1 : Less m.1 k = false := hmin m (first_mem db m hf)
    have h2 : Less k m.1 = false := first_min db m hf (k, v) hmem
    have hk : m.1 = k := Less_total _ _ h1 h2
    have hv := first_get db m hf
    rw [hk, hget] at hv
    have : m = (k, v) := Prod.ext hk (Option.some.inj hv).symm
    rw [this]

theorem exists_smallest (db : Store) (h : db ≠ []) :
    ∃ k v, get db k = some v ∧ ∀ x ∈ db, Less x.1 k = false := by
  cases hf : first db with
  | none => exact absurd ((first_eq_none db).1 hf) h
  | some m => exact ⟨m.1, m.2, first_get db m hf, first_min db m hf⟩

theorem smallest_one (db : Store) :
    smallest 1 db = (first db).toList := by
  simp only [smallest]
  cases first db <;> rfl

end storage

/-! ## The paths of `Enqueue` and `Dequeue` -/

namespace queue

open pb storage

theorem Enqueue_randErr (c : Codec) (env : EnqueueEnv) (qi : InjuredSegment) (db : Store)
    (e : String) (hr : env.randErr = some e) :
    Enqueue c env qi db =
      ⟨some (queueError ("error creating random token " ++ e)), db, []⟩ := by
  simp only [Enqueue, hr]

theorem Enqueue_marshalErr (c : Codec) (env : EnqueueEnv) (qi : InjuredSegment)
    (db : Store) (e : String) (hr : env.randErr = none)
    (hm : c.Marshal qi = Except.error e) :
    Enqueue c env qi db =
      ⟨some (queueError ("error marshalling injured seg " ++ e)), db, []⟩ := by
  simp only [Enqueue, hr, hm]

theorem Enqueue_putErr (c : Codec) (env : EnqueueEnv) (qi : InjuredSegment) (db : Store)
    (val : Bytes) (e : String) (hr : env.randErr = none)
    (hm : c.Marshal qi = Except.ok val) (hp : env.putErr = some e) :
    Enqueue c env qi db =
      ⟨some (queueError ("error adding injured seg to queue " ++ e)), db,
        [Call.Put (dateTime env.now env.token) val]⟩ := by
  simp only [Enqueue, hr, hm, hp, Put]

theorem Enqueue_ok (c : Codec) (env : EnqueueEnv) (qi : InjuredSegment) (db : Store)
    (val : Bytes) (hr : env.randErr = none) (hm : c.Marshal qi = Except.ok val)
    (hp : env.putErr = none) :
    Enqueue c env qi db =
      ⟨none, insert db (dateTime env.now env.token) val,
        [Call.Put (dateTime env.now env.token) val]⟩ := by
  simp only [Enqueue, hr, hm, hp, Put]

theorem Dequeue_listErr (c : Codec) (env : DequeueEnv) (db : Store) (e : String)
    (hl : env.listErr = some e) :
    Dequeue c env db =
      ⟨InjuredSegment.zero, some (queueError ("error getting first key " ++ e)), db,
        [Call.ListV2 1]⟩ := by
  simp only [Dequeue, ListV2, hl]

theorem Dequeue_empty (c : Codec) (env : DequeueEnv) (db : Store)
    (hl : env.listErr = none) (hf : first db = none) :
    Dequeue c env db =
      ⟨InjuredSegment.zero, some (queueError "empty database"), db, [Call.ListV2 1]⟩ := by
  simp only [Dequeue, ListV2, hl, smallest_one, hf, Option.toList]

theorem Dequeue_unmarshalErr (c : Codec) (env : DequeueEnv) (db : Store)
    (item : ListItem) (e : String) (hl : env.listErr = none)
    (hf : first db = some item) (hu : c.Unmarshal item.2 = Except.error e) :
    Dequeue c env db =
      ⟨InjuredSegment.zero, some (queueError ("error unmarshalling segment " ++ e)), db,
        [Call.ListV2 1]⟩ := by
  simp only [Dequeue, ListV2, hl, smallest_one, hf, Option.toList, hu]

theorem Dequeue_deleteErr (c : Codec) (env : DequeueEnv) (db : Store)
    (item : ListItem) (seg : InjuredSegment) (e : String) (hl : env.listErr = none)
    (hf : first db = some item) (hu : c.Unmarshal item.2 = Except.ok seg)
    (hd : env.deleteErr = some e) :
    Dequeue c env db =
      ⟨seg, some (queueError ("error removing injured seg " ++ e)), db,
        [Call.ListV2 1, Call.Delete item.1]⟩ := by
  simp only [Dequeue, ListV2, hl, smallest_one, hf, Option.toList, hu, hd, Delete]

theorem Dequeue_ok (c : Codec) (env : DequeueEnv) (db : Store)
    (item : ListItem) (seg : InjuredSegment) (hl : env.listErr = none)
    (hf : first db = some item) (hu : c.Unmarshal item.2 = Except.ok seg)
    (hd : env.deleteErr = none) :
    Dequeue c env db =
      ⟨seg, none, erase db item.1, [Call.ListV2 1, Call.Delete item.1]⟩ := by
  simp only [Dequeue, ListV2, hl, smallest_one, hf, Option.toList, hu, hd, Delete]

theorem queueError_inj (a b : String) (h : queueError a = queueError b) : a = b := by
  have h1 := congrArg String.data h
  simp only [queueError, String.data_append] at h1
  exact String.ext (List.append_cancel_left h1)

theorem erase_singleton (k v : Bytes) : erase [(k, v)] k = [] := by
  simp [erase]

end queue

/-! ## Single calls -/

namespace queue

open pb storage

/-- C1: starting from the empty store, with no store, entropy or codec failure,
`Enqueue j` followed at once by `Dequeue` returns `j` without error, for every
clock reading and token, given that the bytes `j` marshals to unmarshal to `j`;
the store is empty again afterwards. -/
theorem enqueue_then_dequeue (c : Codec) (j : InjuredSegment) (now : Int)
    (token val : Bytes) (denv : DequeueEnv)
    (hm : c.Marshal j = Except.ok val) (hu : c.Unmarshal val = Except.ok j)
    (hl : denv.listErr = none) (hd : denv.deleteErr = none) :
    (Enqueue c ⟨now, token, none, none⟩ j []).err = none ∧
    (Dequeue c denv (Enqueue c ⟨now, token, none, none⟩ j []).db).seg = j ∧
    (Dequeue c denv (Enqueue c ⟨now, token, none, none⟩ j []).db).err = none ∧
    (Dequeue c denv (Enqueue c ⟨now, token, none, none⟩ j []).db).db = [] := by
  have he := Enqueue_ok c ⟨now, token, none, none⟩ j [] val rfl hm rfl
  have hf : first (insert [] (dateTime now token) val) = some (dateTime now token, val) :=
    rfl
  have hdq := Dequeue_ok c denv _ (dateTime now token, val) j hl hf hu hd
  rw [he]
  simp only [hdq]
  exact ⟨trivial, trivial, trivial, erase_singleton _ _⟩

theorem enqueue_then_dequeue_witness :
    sampleCodec.Marshal ⟨"abc", []⟩ = Except.ok [3, 97, 98, 99] ∧
    sampleCodec.Unmarshal [3, 97, 98, 99] = Except.ok ⟨"abc", []⟩ ∧
    (Dequeue sampleCodec ⟨none, none⟩
      (Enqueue sampleCodec ⟨1536000000000000000, [1, 2, 3, 4], none, none⟩
        ⟨"abc", []⟩ []).db).seg = ⟨"abc", []⟩ :=
  ⟨rfl, rfl,
    (enqueue_then_dequeue sampleCodec ⟨"abc", []⟩ 1536000000000000000 [1, 2, 3, 4]
      [3, 97, 98, 99] ⟨none, none⟩ rfl rfl rfl rfl).2.1⟩

/-- C4: when the store fails exactly on the `Delete` call of a `Dequeue` (the
listing returned an entry and its value unmarshalled), that `Dequeue` returns the
unmarshalled job together with an error, the store is unchanged, so the entry is
still in it, and the next `Dequeue` whose listing succeeds returns the same job. -/
theorem dequeue_delete_failure_redelivers (c : Codec) (env1 env2 : DequeueEnv)
    (db : Store) (item : ListItem) (seg : InjuredSegment) (e : String)
    (hl : env1.listErr = none) (hf : first db = some item)
    (hu : c.Unmarshal item.2 = Except.ok seg) (hd : env1.deleteErr = some e)
    (hl2 : env2.listErr = none) :
    (Dequeue c env1 db).seg = seg ∧
    (Dequeue c env1 db).err = some (queueError ("error removing injured seg " ++ e)) ∧
    (Dequeue c env1 db).db = db ∧
    item ∈ (Dequeue c env1 db).db ∧
    get (Dequeue c env1 db).db item.1 = some item.2 ∧
    (Dequeue c env2 (Dequeue c env1 db).db).seg = (Dequeue c env1 db).seg := by
  have h1 := Dequeue_deleteErr c env1 db item seg e hl hf hu hd
  rw [h1]
  refine ⟨rfl, rfl, rfl, first_mem db item hf, first_get db item hf, ?_⟩
  show (Dequeue c env2 db).seg = seg
  cases hd2 : env2.deleteErr with
  | none => rw [Dequeue_ok c env2 db item seg hl2 hf hu hd2]
  | some e2 => rw [Dequeue_deleteErr c env2 db item seg e2 hl2 hf hu hd2]

theorem dequeue_delete_failure_redelivers_witness :
    (Dequeue sampleCodec ⟨none, some "connection lost"⟩
      [([0, 0, 0, 0, 0, 0, 0, 5, 1, 2, 3, 4], [1, 48, 0])]).seg = ⟨"0", [0]⟩ ∧
    (Dequeue sampleCodec ⟨none, none⟩
      (Dequeue sampleCodec ⟨none, some "connection lost"⟩
        [([0, 0, 0, 0, 0, 0, 0, 5, 1, 2, 3, 4], [1, 48, 0])]).db).seg =
    (Dequeue sampleCodec ⟨none, some "connection lost"⟩
      [([0, 0, 0, 0, 0, 0, 0, 5, 1, 2, 3, 4], [1, 48, 0])]).seg :=
  have h := dequeue_delete_failure_redelivers sampleCodec ⟨none, some "connection lost"⟩
    ⟨none, none⟩ [([0, 0, 0, 0, 0, 0, 0, 5, 1, 2, 3, 4], [1, 48, 0])]
    ([0, 0, 0, 0, 0, 0, 0, 5, 1, 2, 3, 4], [1, 48, 0]) ⟨"0", [0]⟩ "connection lost"
    rfl rfl rfl rfl rfl
  ⟨h.1, h.2.2.2.2.2⟩

/-- C5: after a successful `Enqueue`, a `Dequeue` whose first store call (the
listing) fails returns the zero-value job and the listing error, issues no other
store call, and leaves the store as the `Enqueue` left it: the enqueued entry is
still there under its key. -/
theorem dequeue_after_enqueue_list_failure (c : Codec) (env : EnqueueEnv)
    (qi : InjuredSegment) (db : Store) (denv : DequeueEnv) (e : String)
    (hok : (Enqueue c env qi db).err = none) (hl : denv.listErr = some e) :
    (Dequeue c denv (Enqueue c env qi db).db).seg = InjuredSegment.zero ∧
    (Dequeue c denv (Enqueue c env qi db).db).err =
      some (queueError ("error getting first key " ++ e)) ∧
    (Dequeue c denv (Enqueue c env qi db).db).calls = [Call.ListV2 1] ∧
    (Dequeue c denv (Enqueue c env qi db).db).db = (Enqueue c env qi db).db ∧
    ∃ val, c.Marshal qi = Except.ok val ∧
      get (Dequeue c denv (Enqueue c env qi db).db).db (dateTime env.now env.token) =
        some val := by
  rw [Dequeue_listErr c denv _ e hl]
  refine ⟨rfl, rfl, rfl, rfl, ?_⟩
  cases hr : env.randErr with
  | some e1 => rw [Enqueue_randErr c env qi db e1 hr] at hok; cases hok
  | none =>
    cases hm : c.Marshal qi with
    | error e1 => rw [Enqueue_marshalErr c env qi db e1 hr hm] at hok; cases hok
    | ok val =>
      cases hp : env.putErr with
      | some e1 => rw [Enqueue_putErr c env qi db val e1 hr hm hp] at hok; cases hok
      | none =>
        rw [Enqueue_ok c env qi db val hr hm hp]
        exact ⟨val, rfl, get_insert_self db _ val⟩

theorem dequeue_after_enqueue_list_failure_witness :
    (Enqueue sampleCodec ⟨7, [9, 9, 9, 9], none, none⟩ ⟨"abc", []⟩ []).err = none ∧
    (Dequeue sampleCodec ⟨some "internal error", none⟩
      (Enqueue sampleCodec ⟨7, [9, 9, 9, 9], none, none⟩ ⟨"abc", []⟩ []).db).seg =
      InjuredSegment.zero ∧
    (Dequeue sampleCodec ⟨some "internal error", none⟩
      (Enqueue sampleCodec ⟨7, [9, 9, 9, 9], none, none⟩ ⟨"abc", []⟩ []).db).db =
      [([0, 0, 0, 0, 0, 0, 0, 7, 9, 9, 9, 9], [3, 97, 98, 99])] :=
  have h := dequeue_after_enqueue_list_failure sampleCodec ⟨7, [9, 9, 9, 9], none, none⟩
    ⟨"abc", []⟩ [] ⟨some "internal error", none⟩ "internal error" rfl rfl
  ⟨rfl, h.1, h.2.2.2.1.trans rfl⟩

end queue

namespace queue

open pb storage

theorem mem_erase (db : Store) (k : Bytes) (x : ListItem) :
    x ∈ erase db k ↔ x ∈ db ∧ x.1 ≠ k := by
  simp [erase, List.mem_filter]

theorem emptyQueue_ne (pre e : String) (hpre : pre.data.take 2 = ['e', 'r']) :
    queueError "empty database" ≠ queueError (pre ++ e) := by
  intro h
  have h1 := congrArg (fun s => s.data.take 2) (queueError_inj _ _ h)
  simp only [String.data_append] at h1
  have h2 : 2 ≤ pre.data.length := by
    have := congrArg List.length hpre
    simp only [List.length_take, List.length_cons, List.length_nil] at this
    omega
  rw [List.take_append_of_le_length h2, hpre] at h1
  revert h1
  decide

/-- C6: `Dequeue` on a store with no entries, the listing having succeeded, returns
the zero-value job and the error "empty database", issues no `Delete` and leaves
the store empty; that error differs from each error `Dequeue` returns for a
listing failure, an unmarshalling failure and a delete failure, whatever the
underlying cause. -/
theorem dequeue_empty_store (c : Codec) (env : DequeueEnv) (hl : env.listErr = none) :
    Dequeue c env [] =
      ⟨InjuredSegment.zero, some (queueError "empty database"), [], [Call.ListV2 1]⟩ ∧
    (∀ e, queueError "empty database" ≠ queueError ("error getting first key " ++ e)) ∧
    (∀ e, queueError "empty database" ≠
      queueError ("error unmarshalling segment " ++ e)) ∧
    (∀ e, queueError "empty database" ≠ queueError ("error removing injured seg " ++ e)) :=
  ⟨Dequeue_empty c env [] hl rfl, fun e => emptyQueue_ne _ e rfl,
    fun e => emptyQueue_ne _ e rfl, fun e => emptyQueue_ne _ e rfl⟩

theorem dequeue_empty_store_witness :
    (Dequeue sampleCodec ⟨none, some "unused"⟩ []).err =
      some "data repair queue error: empty database" ∧
    (Dequeue sampleCodec ⟨none, some "unused"⟩ []).calls = [Call.ListV2 1] :=
  have h := (dequeue_empty_store sampleCodec ⟨none, some "unused"⟩ rfl).1
  ⟨(congrArg DequeueResult.err h).trans rfl, congrArg DequeueResult.calls h⟩

/-- C7: when the value under the smallest key does not unmarshal, `Dequeue` returns
the zero-value job and the unmarshalling error, issues no `Delete`, and leaves the
store exactly as it was, the offending key still mapped to its value. -/
theorem dequeue_undecodable_head (c : Codec) (env : DequeueEnv) (db : Store)
    (key val : Bytes) (e : String) (hl : env.listErr = none)
    (hget : get db key = some val) (hmin : ∀ x ∈ db, Less x.1 key = false)
    (hu : c.Unmarshal val = Except.error e) :
    (Dequeue c env db).seg = InjuredSegment.zero ∧
    (Dequeue c env db).err = some (queueError ("error unmarshalling segment " ++ e)) ∧
    (Dequeue c env db).calls = [Call.ListV2 1] ∧
    (Dequeue c env db).db = db ∧
    get (Dequeue c env db).db key = some val := by
  have hf := first_of_smallest db key val hget hmin
  rw [Dequeue_unmarshalErr c env db (key, val) e hl hf hu]
  exact ⟨rfl, rfl, rfl, rfl, hget⟩

theorem dequeue_undecodable_head_witness :
    (Dequeue sampleCodec ⟨none, none⟩
      [([0, 0, 0, 0, 0, 0, 0, 9, 1, 1, 1, 1], [0, 7]),
       ([0, 0, 0, 0, 0, 0, 0, 5, 1, 2, 3, 4], [200])]).err =
      some "data repair queue error: error unmarshalling segment illegal byte" ∧
    (Dequeue sampleCodec ⟨none, none⟩
      [([0, 0, 0, 0, 0, 0, 0, 9, 1, 1, 1, 1], [0, 7]),
       ([0, 0, 0, 0, 0, 0, 0, 5, 1, 2, 3, 4], [200])]).db =
      [([0, 0, 0, 0, 0, 0, 0, 9, 1, 1, 1, 1], [0, 7]),
       ([0, 0, 0, 0, 0, 0, 0, 5, 1, 2, 3, 4], [200])] :=
  have h := dequeue_undecodable_head sampleCodec ⟨none, none⟩
    [([0, 0, 0, 0, 0, 0, 0, 9, 1, 1, 1, 1], [0, 7]),
     ([0, 0, 0, 0, 0, 0, 0, 5, 1, 2, 3, 4], [200])]
    [0, 0, 0, 0, 0, 0, 0, 5, 1, 2, 3, 4] [200] "illegal byte" rfl (by decide)
    (by decide) rfl
  ⟨h.2.1.trans rfl, h.2.2.2.1⟩

end queue

namespace queue

open pb storage

/-- C8: whenever `Enqueue` returns an error the store is unchanged.  A failure of
the random source is reported whatever the codec would do and no `Put` is issued;
a marshalling failure issues no `Put`; after a failing `Put` the store is as before,
so every later run of `Dequeue` calls behaves as if the job had never been offered;
and `Enqueue` returns nil only when the `Put` was issued and succeeded. -/
theorem enqueue_error_keeps_store (c : Codec) (env : EnqueueEnv) (qi : InjuredSegment)
    (db : Store) :
    ((Enqueue c env qi db).err ≠ none → (Enqueue c env qi db).db = db) ∧
    (∀ e, env.randErr = some e →
      Enqueue c env qi db =
        ⟨some (queueError ("error creating random token " ++ e)), db, []⟩) ∧
    (∀ e, env.randErr = none → c.Marshal qi = Except.error e →
      Enqueue c env qi db =
        ⟨some (queueError ("error marshalling injured seg " ++ e)), db, []⟩) ∧
    (∀ e val, env.randErr = none → c.Marshal qi = Except.ok val → env.putErr = some e →
      Enqueue c env qi db =
        ⟨some (queueError ("error adding injured seg to queue " ++ e)), db,
          [Call.Put (dateTime env.now env.token) val]⟩ ∧
      ∀ denvs, dequeueAll c denvs (Enqueue c env qi db).db = dequeueAll c denvs db) ∧
    ((Enqueue c env qi db).err = none →
      env.putErr = none ∧
      ∃ val, c.Marshal qi = Except.ok val ∧
        (Enqueue c env qi db).calls = [Call.Put (dateTime env.now env.token) val] ∧
        (Enqueue c env qi db).db = insert db (dateTime env.now env.token) val) := by
  refine ⟨?_, fun e hr => Enqueue_randErr c env qi db e hr,
    fun e hr hm => Enqueue_marshalErr c env qi db e hr hm, ?_, ?_⟩
  · intro herr
    cases hr : env.randErr with
    | some e1 => rw [Enqueue_randErr c env qi db e1 hr]
    | none =>
      cases hm : c.Marshal qi with
      | error e1 => rw [Enqueue_marshalErr c env qi db e1 hr hm]
      | ok val =>
        cases hp : env.putErr with
        | some e1 => rw [Enqueue_putErr c env qi db val e1 hr hm hp]
        | none =>
          rw [Enqueue_ok c env qi db val hr hm hp] at herr
          exact absurd rfl herr
  · intro e val hr hm hp
    have h := Enqueue_putErr c env qi db val e hr hm hp
    refine ⟨h, fun denvs => ?_⟩
    rw [h]
  · intro hok
    cases hr : env.randErr with
    | some e1 => rw [Enqueue_randErr c env qi db e1 hr] at hok; cases hok
    | none =>
      cases hm : c.Marshal qi with
      | error e1 => rw [Enqueue_marshalErr c env qi db e1 hr hm] at hok; cases hok
      | ok val =>
        cases hp : env.putErr with
        | some e1 => rw [Enqueue_putErr c env qi db val e1 hr hm hp] at hok; cases hok
        | none =>
          rw [Enqueue_ok c env qi db val hr hm hp]
          exact ⟨rfl, val, rfl, rfl, rfl⟩

theorem enqueue_error_keeps_store_witness :
    (Enqueue sampleCodec ⟨7, [9, 9, 9, 9], none, some "internal error"⟩ ⟨"abc", []⟩
      [([0, 0, 0, 0, 0, 0, 0, 5, 1, 2, 3, 4], [0, 7])]).err =
      some "data repair queue error: error adding injured seg to queue internal error" ∧
    (Enqueue sampleCodec ⟨7, [9, 9, 9, 9], none, some "internal error"⟩ ⟨"abc", []⟩
      [([0, 0, 0, 0, 0, 0, 0, 5, 1, 2, 3, 4], [0, 7])]).db =
      [([0, 0, 0, 0, 0, 0, 0, 5, 1, 2, 3, 4], [0, 7])] :=
  ⟨rfl,
    (enqueue_error_keeps_store sampleCodec ⟨7, [9, 9, 9, 9], none, some "internal error"⟩
      ⟨"abc", []⟩ [([0, 0, 0, 0, 0, 0, 0, 5, 1, 2, 3, 4], [0, 7])]).1 (by decide)⟩

/-- C9: every store with at least one entry has a smallest key, and a `Dequeue`
with no failure (listing and delete succeed, the value under that key unmarshals)
returns the job unmarshalled from the value under that key, deletes exactly that
key, and leaves every other key mapped to the value it had. -/
theorem dequeue_takes_smallest (db : Store) (hne : db ≠ []) :
    ∃ key val, get db key = some val ∧ (∀ x ∈ db, Less x.1 key = false) ∧
      ∀ (c : Codec) (env : DequeueEnv) (seg : InjuredSegment),
        env.listErr = none → env.deleteErr = none → c.Unmarshal val = Except.ok seg →
        (Dequeue c env db).seg = seg ∧
        (Dequeue c env db).err = none ∧
        (Dequeue c env db).calls = [Call.ListV2 1, Call.Delete key] ∧
        get (Dequeue c env db).db key = none ∧
        ∀ k, k ≠ key → get (Dequeue c env db).db k = get db k := by
  obtain ⟨key, val, hget, hmin⟩ := exists_smallest db hne
  refine ⟨key, val, hget, hmin, fun c env seg hl hd hu => ?_⟩
  have hf := first_of_smallest db key val hget hmin
  rw [Dequeue_ok c env db (key, val) seg hl hf hu hd]
  exact ⟨rfl, rfl, rfl, get_erase_self db key, fun k hk => get_erase_ne db key k hk⟩

theorem dequeue_takes_smallest_witness :
    ([([0, 0, 0, 0, 0, 0, 0, 9, 1, 1, 1, 1], [0, 7]),
       ([0, 0, 0, 0, 0, 0, 0, 5, 1, 2, 3, 4], [0, 3])] : Store) ≠ [] ∧
    ∃ key val,
      get [([0, 0, 0, 0, 0, 0, 0, 9, 1, 1, 1, 1], [0, 7]),
       ([0, 0, 0, 0, 0, 0, 0, 5, 1, 2, 3, 4], [0, 3])] key = some val ∧
      (∀ x ∈ ([([0, 0, 0, 0, 0, 0, 0, 9, 1, 1, 1, 1], [0, 7]),
       ([0, 0, 0, 0, 0, 0, 0, 5, 1, 2, 3, 4], [0, 3])] : Store), Less x.1 key = false) ∧
      ∀ (c : Codec) (env : DequeueEnv) (seg : InjuredSegment),
        env.listErr = none → env.deleteErr = none → c.Unmarshal val = Except.ok seg →
        (Dequeue c env [([0, 0, 0, 0, 0, 0, 0, 9, 1, 1, 1, 1], [0, 7]),
       ([0, 0, 0, 0, 0, 0, 0, 5, 1, 2, 3, 4], [0, 3])]).seg = seg ∧
        (Dequeue c env [([0, 0, 0, 0, 0, 0, 0, 9, 1, 1, 1, 1], [0, 7]),
       ([0, 0, 0, 0, 0, 0, 0, 5, 1, 2, 3, 4], [0, 3])]).err = none ∧
        (Dequeue c env [([0, 0, 0, 0, 0, 0, 0, 9, 1, 1, 1, 1], [0, 7]),
       ([0, 0, 0, 0, 0, 0, 0, 5, 1, 2, 3, 4], [0, 3])]).calls = [Call.ListV2 1, Call.Delete key] ∧
        get (Dequeue c env [([0, 0, 0, 0, 0, 0, 0, 9, 1, 1, 1, 1], [0, 7]),
       ([0, 0, 0, 0, 0, 0, 0, 5, 1, 2, 3, 4], [0, 3])]).db key = none ∧
        ∀ k, k ≠ key → get (Dequeue c env [([0, 0, 0, 0, 0, 0, 0, 9, 1, 1, 1, 1], [0, 7]),
       ([0, 0, 0, 0, 0, 0, 0, 5, 1, 2, 3, 4], [0, 3])]).db k =
          get [([0, 0, 0, 0, 0, 0, 0, 9, 1, 1, 1, 1], [0, 7]),
       ([0, 0, 0, 0, 0, 0, 0, 5, 1, 2, 3, 4], [0, 3])] k :=
  ⟨by decide, dequeue_takes_smallest
    [([0, 0, 0, 0, 0, 0, 0, 9, 1, 1, 1, 1], [0, 7]),
       ([0, 0, 0, 0, 0, 0, 0, 5, 1, 2, 3, 4], [0, 3])] (by decide)⟩

/-- C10: a successful `Enqueue` of `j` at clock reading `t` with token `r` changes
the store only by putting the marshalled bytes of `j` under the key built from
`(t, r)`: that key then maps to exactly those bytes, every other key maps to what it
mapped to before, and the entry is in the store a following `Dequeue` lists; when no
other key of the store is smaller, that `Dequeue` returns the job the bytes
unmarshal to. -/
theorem enqueue_frame (c : Codec) (env : EnqueueEnv) (j : InjuredSegment) (db : Store)
    (hok : (Enqueue c env j db).err = none) :
    ∃ val, c.Marshal j = Except.ok val ∧
      (Enqueue c env j db).calls = [Call.Put (dateTime env.now env.token) val] ∧
      get (Enqueue c env j db).db (dateTime env.now env.token) = some val ∧
      (∀ k, k ≠ dateTime env.now env.token →
        get (Enqueue c env j db).db k = get db k) ∧
      (dateTime env.now env.token, val) ∈ (Enqueue c env j db).db ∧
      ∀ (denv : DequeueEnv) (seg : InjuredSegment),
        (∀ x ∈ db, Less x.1 (dateTime env.now env.token) = false) →
        denv.listErr = none → c.Unmarshal val = Except.ok seg →
        (Dequeue c denv (Enqueue c env j db).db).seg = seg := by
  cases hr : env.randErr with
  | some e1 => rw [Enqueue_randErr c env j db e1 hr] at hok; cases hok
  | none =>
    cases hm : c.Marshal j with
    | error e1 => rw [Enqueue_marshalErr c env j db e1 hr hm] at hok; cases hok
    | ok val =>
      cases hp : env.putErr with
      | some e1 => rw [Enqueue_putErr c env j db val e1 hr hm hp] at hok; cases hok
      | none =>
        rw [Enqueue_ok c env j db val hr hm hp]
        refine ⟨val, rfl, rfl, get_insert_self db _ val,
          fun k hk => get_insert_ne db _ val k hk, List.mem_cons_self _ _, ?_⟩
        intro denv seg hmin hl hu
        have hmin2 : ∀ x ∈ insert db (dateTime env.now env.token) val,
            Less x.1 (dateTime env.now env.token) = false := by
          intro x hx
          rcases List.mem_cons.1 hx with hx | hx
          · rw [hx]; exact Less_irrefl _
          · exact hmin x ((mem_erase db _ x).1 hx).1
        have hf := first_of_smallest _ _ val (get_insert_self db _ val) hmin2
        cases hd : denv.deleteErr with
        | none => rw [Dequeue_ok c denv _ _ seg hl hf hu hd]
        | some e2 => rw [Dequeue_deleteErr c denv _ _ seg e2 hl hf hu hd]

theorem enqueue_frame_witness :
    (Enqueue sampleCodec ⟨7, [9, 9, 9, 9], none, none⟩ ⟨"abc", []⟩
      [([0, 0, 0, 0, 0, 0, 0, 9, 1, 1, 1, 1], [0, 7])]).err = none ∧
    ∃ val, sampleCodec.Marshal ⟨"abc", []⟩ = Except.ok val ∧
      get (Enqueue sampleCodec ⟨7, [9, 9, 9, 9], none, none⟩ ⟨"abc", []⟩
        [([0, 0, 0, 0, 0, 0, 0, 9, 1, 1, 1, 1], [0, 7])]).db
        (dateTime 7 [9, 9, 9, 9]) = some val :=
  have h := enqueue_frame sampleCodec ⟨7, [9, 9, 9, 9], none, none⟩ ⟨"abc", []⟩
    [([0, 0, 0, 0, 0, 0, 0, 9, 1, 1, 1, 1], [0, 7])] rfl
  ⟨rfl, h.elim fun val hv => ⟨val, hv.1, hv.2.2.1⟩⟩

end queue

namespace queue
open pb storage

theorem digit_step (a b : Nat) (h : a < b) :
    a / 256 < b / 256 ∨ (a / 256 = b / 256 ∧ a % 256 < b % 256) := by omega

theorem PutUint64_digits (v : Nat) :
    PutUint64 v = [v / 256 / 256 / 256 / 256 / 256 / 256 / 256 % 256,
      v / 256 / 256 / 256 / 256 / 256 / 256 % 256, v / 256 / 256 / 256 / 256 / 256 % 256,
      v / 256 / 256 / 256 / 256 % 256, v / 256 / 256 / 256 % 256, v / 256 / 256 % 256,
      v / 256 % 256, v % 256] := by
  simp only [PutUint64, Nat.div_div_eq_div_mul]
  norm_num

theorem PutUint64_lt (u v : Nat) (r1 r2 : Bytes) (huv : u < v) (hv : v < 2 ^ 64) :
    Less (PutUint64 u ++ r1) (PutUint64 v ++ r2) = true := by
  rw [PutUint64_digits, PutUint64_digits]
  simp only [List.cons_append, List.nil_append, Less_cons]
  have hv7 : v / 256 / 256 / 256 / 256 / 256 / 256 / 256 / 256 = 0 := by
    simp only [Nat.div_div_eq_div_mul]; omega
  rcases digit_step _ _ huv with h1 | ⟨e1, l1⟩
  swap
  · simp [e1, l1]
  rcases digit_step _ _ h1 with h2 | ⟨e2, l2⟩
  swap
  · simp [e2, l2]
  rcases digit_step _ _ h2 with h3 | ⟨e3, l3⟩
  swap
  · simp [e3, l3]
  rcases digit_step _ _ h3 with h4 | ⟨e4, l4⟩
  swap
  · simp [e4, l4]
  rcases digit_step _ _ h4 with h5 | ⟨e5, l5⟩
  swap
  · simp [e5, l5]
  rcases digit_step _ _ h5 with h6 | ⟨e6, l6⟩
  swap
  · simp [e6, l6]
  rcases digit_step _ _ h6 with h7 | ⟨e7, l7⟩
  swap
  · simp [e7, l7]
  rcases digit_step _ _ h7 with h8 | ⟨e8, l8⟩
  swap
  · simp [e8, l8]
  rw [hv7] at h8
  exact absurd h8 (Nat.not_lt_zero _)

end queue

namespace queue
open pb storage

theorem toUint64_lt (t1 t2 : Int) (hlt : t1 < t2) (hlo : -9223372036854775808 ≤ t1)
    (hhi : t2 < 9223372036854775808) (hs : 0 ≤ t1 ∨ t2 < 0) :
    toUint64 t1 < toUint64 t2 ∧ toUint64 t2 < 2 ^ 64 := by
  unfold toUint64
  omega

theorem dateTime_lt (t1 t2 : Int) (r1 r2 : Bytes) (hlt : t1 < t2)
    (hlo : -9223372036854775808 ≤ t1) (hhi : t2 < 9223372036854775808)
    (hs : 0 ≤ t1 ∨ t2 < 0) :
    Less (dateTime t1 r1) (dateTime t2 r2) = true := by
  have h := toUint64_lt t1 t2 hlt hlo hhi hs
  exact PutUint64_lt _ _ r1 r2 h.1 h.2

theorem erase_eq_self (db : Store) (k : Bytes) (h : ∀ x ∈ db, x.1 ≠ k) :
    erase db k = db := by
  unfold erase
  rw [List.filter_eq_self]
  intro x hx
  simpa using h x hx

theorem erase_length_le (db : Store) (k : Bytes) : (erase db k).length ≤ db.length :=
  List.length_filter_le _ _

theorem erase_length_eq (db : Store) (k : Bytes)
    (h : (erase db k).length = db.length) : ∀ x ∈ db, x.1 ≠ k := by
  intro x hx
  have h1 : erase db k = db := by
    unfold erase at h ⊢
    exact List.filter_eq_self.2 (List.filter_length_eq_length.1 h)
  rw [← h1] at hx
  exact ((mem_erase db k x).1 hx).2

theorem putAll_length_le (kvs : List ListItem) (db : Store) :
    (putAll kvs db).length ≤ kvs.length + db.length := by
  induction kvs generalizing db with
  | nil => simp [putAll]
  | cons e rest ih =>
    have h1 := ih (insert db e.1 e.2)
    have h2 := erase_length_le db e.1
    simp only [putAll, List.length_cons, storage.insert] at h1 ⊢
    omega

theorem putAll_of_length (kvs : List ListItem) (db : Store)
    (h : (putAll kvs db).length = kvs.length + db.length) :
    putAll kvs db = kvs.reverse ++ db ∧
    kvs.Pairwise (fun a b => a.1 ≠ b.1) ∧ ∀ e ∈ kvs, ∀ x ∈ db, x.1 ≠ e.1 := by
  induction kvs generalizing db with
  | nil => simp [putAll]
  | cons e rest ih =>
    obtain ⟨k, v⟩ := e
    have h1 := putAll_length_le rest (insert db k v)
    have h2 := erase_length_le db k
    simp only [putAll, List.length_cons, storage.insert] at h h1 ⊢
    have h3 : (erase db k).length = db.length := by omega
    have h4 := erase_length_eq db k h3
    have h5 := erase_eq_self db k h4
    rw [h5] at h ⊢
    have h6 := ih ((k, v) :: db) (by simp only [List.length_cons]; omega)
    refine ⟨by rw [h6.1]; simp, ?_, ?_⟩
    · refine List.pairwise_cons.2 ⟨?_, h6.2.1⟩
      intro b hb
      exact h6.2.2 b hb (k, v) (List.mem_cons_self _ _)
    · intro a ha x hx
      rcases List.mem_cons.1 ha with ha | ha
      · rw [ha]; exact h4 x hx
      · exact h6.2.2 a ha x (List.mem_cons_of_mem _ hx)

theorem putAll_distinct (kvs : List ListItem) (db : Store)
    (hd : kvs.Pairwise (fun a b => a.1 ≠ b.1)) (hdb : ∀ e ∈ kvs, ∀ x ∈ db, x.1 ≠ e.1) :
    putAll kvs db = kvs.reverse ++ db := by
  induction kvs generalizing db with
  | nil => simp [putAll]
  | cons e rest ih =>
    obtain ⟨k, v⟩ := e
    have hp := List.pairwise_cons.1 hd
    simp only [putAll, storage.insert]
    rw [erase_eq_self db k (hdb (k, v) (List.mem_cons_self _ _))]
    rw [ih ((k, v) :: db) hp.2]
    · simp
    · intro a ha x hx
      rcases List.mem_cons.1 hx with hx | hx
      · rw [hx]; exact hp.1 a ha
      · exact hdb a (List.mem_cons_of_mem _ ha) x hx

end queue

namespace queue
open pb storage

theorem Enqueue_err_none (c : Codec) (env : EnqueueEnv) (qi : InjuredSegment) (db : Store)
    (hok : (Enqueue c env qi db).err = none) :
    env.randErr = none ∧ env.putErr = none ∧ (∃ val, c.Marshal qi = Except.ok val) ∧
    (Enqueue c env qi db).db = insert db (entryOf c (env, qi)).1 (entryOf c (env, qi)).2 := by
  cases hr : env.randErr with
  | some e1 => rw [Enqueue_randErr c env qi db e1 hr] at hok; cases hok
  | none =>
    cases hm : c.Marshal qi with
    | error e1 => rw [Enqueue_marshalErr c env qi db e1 hr hm] at hok; cases hok
    | ok val =>
      cases hp : env.putErr with
      | some e1 => rw [Enqueue_putErr c env qi db val e1 hr hm hp] at hok; cases hok
      | none =>
        rw [Enqueue_ok c env qi db val hr hm hp]
        simp only [entryOf, hm]
        exact ⟨trivial, trivial, ⟨val, rfl⟩, trivial⟩

theorem Enqueue_no_failure (c : Codec) (env : EnqueueEnv) (qi : InjuredSegment)
    (db : Store) (hr : env.randErr = none) (hp : env.putErr = none)
    (hm : ∃ val, c.Marshal qi = Except.ok val) :
    (Enqueue c env qi db).err = none := by
  obtain ⟨val, hm⟩ := hm
  rw [Enqueue_ok c env qi db val hr hm hp]

theorem enqueueAll_ok (c : Codec) (calls : List (EnqueueEnv × InjuredSegment)) (db : Store)
    (h : ∀ e ∈ (enqueueAll c calls db).1, e = none) :
    (enqueueAll c calls db).2 = putAll (calls.map (entryOf c)) db := by
  induction calls generalizing db with
  | nil => rfl
  | cons p rest ih =>
    obtain ⟨env, qi⟩ := p
    simp only [enqueueAll, List.mem_cons, forall_eq_or_imp] at h
    have h1 := Enqueue_err_none c env qi db h.1
    simp only [enqueueAll, List.map_cons, putAll]
    rw [← h1.2.2.2]
    exact ih _ h.2

theorem enqueueAll_no_failure (c : Codec) (calls : List (EnqueueEnv × InjuredSegment))
    (db : Store)
    (h : ∀ p ∈ calls, p.1.randErr = none ∧ p.1.putErr = none ∧
      ∃ val, c.Marshal p.2 = Except.ok val) :
    (enqueueAll c calls db).1 = calls.map (fun _ => none) := by
  induction calls generalizing db with
  | nil => rfl
  | cons p rest ih =>
    obtain ⟨env, qi⟩ := p
    have hp := h (env, qi) (List.mem_cons_self _ _)
    simp only [enqueueAll, List.map_cons]
    rw [Enqueue_no_failure c env qi db hp.1 hp.2.1 hp.2.2]
    rw [ih _ (fun p hp => h p (List.mem_cons_of_mem _ hp))]

theorem Dequeue_err_none (c : Codec) (env : DequeueEnv) (db : Store)
    (hok : (Dequeue c env db).err = none) :
    ∃ item, first db = some item ∧ c.Unmarshal item.2 = Except.ok (Dequeue c env db).seg ∧
      (Dequeue c env db).seg = decodeItem c item ∧
      (Dequeue c env db).db = erase db item.1 := by
  cases hl : env.listErr with
  | some e1 => rw [Dequeue_listErr c env db e1 hl] at hok; cases hok
  | none =>
    cases hf : first db with
    | none => rw [Dequeue_empty c env db hl hf] at hok; cases hok
    | some item =>
      cases hu : c.Unmarshal item.2 with
      | error e1 => rw [Dequeue_unmarshalErr c env db item e1 hl hf hu] at hok; cases hok
      | ok seg =>
        cases hd : env.deleteErr with
        | some e1 => rw [Dequeue_deleteErr c env db item seg e1 hl hf hu hd] at hok; cases hok
        | none =>
          rw [Dequeue_ok c env db item seg hl hf hu hd]
          exact ⟨item, rfl, hu, by simp only [decodeItem, hu], rfl⟩

theorem erase_pairwise (db : Store) (k : Bytes) (h : db.Pairwise (fun a b => a.1 ≠ b.1)) :
    (erase db k).Pairwise (fun a b => a.1 ≠ b.1) :=
  List.Pairwise.filter _ h

theorem perm_erase (db : Store) (item : ListItem) (h : db.Pairwise (fun a b => a.1 ≠ b.1))
    (hm : item ∈ db) : List.Perm db (item :: erase db item.1) := by
  induction db with
  | nil => cases hm
  | cons e rest ih =>
    have hp := List.pairwise_cons.1 h
    rw [erase_cons]
    rcases List.mem_cons.1 hm with hm | hm
    · subst hm
      rw [if_pos rfl, erase_eq_self rest item.1 (fun x hx => (hp.1 x hx).symm)]
    · have hne : e.1 ≠ item.1 := hp.1 item hm
      rw [if_neg hne]
      exact ((ih hp.2 hm).cons e).trans (List.Perm.swap _ _ _)

theorem erase_length_lt (db : Store) (item : ListItem) (hm : item ∈ db) :
    (erase db item.1).length < db.length := by
  induction db with
  | nil => cases hm
  | cons e rest ih =>
    rw [erase_cons]
    by_cases he : e.1 = item.1
    · rw [if_pos he]
      have := erase_length_le rest item.1
      simp only [List.length_cons]
      omega
    · rw [if_neg he]
      rcases List.mem_cons.1 hm with hm | hm
      · rw [hm] at he
        exact absurd rfl he
      · have := ih hm
        simp only [List.length_cons]
        omega

theorem dequeueAll_length (c : Codec) (denvs : List DequeueEnv) (db : Store)
    (h : ∀ r ∈ (dequeueAll c denvs db).1, r.2 = none) :
    denvs.length + (dequeueAll c denvs db).2.length ≤ db.length := by
  induction denvs generalizing db with
  | nil => simp [dequeueAll]
  | cons env rest ih =>
    simp only [dequeueAll, List.mem_cons, forall_eq_or_imp] at h
    obtain ⟨item, hf, _, _, hdb⟩ := Dequeue_err_none c env db h.1
    have h1 := ih _ h.2
    have h2 := erase_length_lt db item (first_mem db item hf)
    simp only [dequeueAll, List.length_cons]
    rw [hdb] at h1 ⊢
    omega

theorem dequeueAll_perm (c : Codec) (denvs : List DequeueEnv) (db : Store)
    (hdb : db.Pairwise (fun a b => a.1 ≠ b.1))
    (h : ∀ r ∈ (dequeueAll c denvs db).1, r.2 = none) :
    ∃ taken : List ListItem, List.Perm db (taken ++ (dequeueAll c denvs db).2) ∧
      (dequeueAll c denvs db).1.map Prod.fst = taken.map (decodeItem c) ∧
      ∀ e ∈ taken, c.Unmarshal e.2 = Except.ok (decodeItem c e) := by
  induction denvs generalizing db with
  | nil => exact ⟨[], by simp [dequeueAll], rfl, by simp⟩
  | cons env rest ih =>
    simp only [dequeueAll, List.mem_cons, forall_eq_or_imp] at h
    obtain ⟨item, hf, hu, hseg, hdb1⟩ := Dequeue_err_none c env db h.1
    have hp := perm_erase db item hdb (first_mem db item hf)
    obtain ⟨taken, ht1, ht2, ht3⟩ := ih (Dequeue c env db).db
      (by rw [hdb1]; exact erase_pairwise db item.1 hdb) h.2
    refine ⟨item :: taken, ?_, ?_, ?_⟩
    · simp only [dequeueAll, List.cons_append]
      rw [hdb1] at ht1 ⊢
      exact hp.trans (ht1.cons item)
    · simp only [dequeueAll, List.map_cons, ht2, hseg]
    · intro e he
      rcases List.mem_cons.1 he with he | he
      · rw [he, ← hseg]; exact hu
      · exact ht3 e he

theorem dequeueAll_ascending (c : Codec) (items : List ListItem) (denvs : List DequeueEnv)
    (hlen : denvs.length = items.length)
    (hasc : items.Pairwise (fun a b => Less a.1 b.1 = true))
    (hdec : ∀ e ∈ items, ∃ seg, c.Unmarshal e.2 = Except.ok seg)
    (henv : ∀ d ∈ denvs, d.listErr = none ∧ d.deleteErr = none) :
    dequeueAll c denvs items.reverse = (items.map (fun e => (decodeItem c e, none)), []) := by
  induction items generalizing denvs with
  | nil =>
    cases denvs with
    | nil => rfl
    | cons d ds => simp at hlen
  | cons e rest ih =>
    cases denvs with
    | nil => simp at hlen
    | cons d ds =>
      have hp := List.pairwise_cons.1 hasc
      have hd := henv d (List.mem_cons_self _ _)
      obtain ⟨seg, hu⟩ := hdec e (List.mem_cons_self _ _)
      have hf : first (e :: rest).reverse = some e := by
        apply first_of_min
        · simp
        · intro x hx hne
          rw [List.mem_reverse] at hx
          rcases List.mem_cons.1 hx with hx | hx
          · exact absurd hx hne
          · exact hp.1 x hx
      have her : erase (e :: rest).reverse e.1 = rest.reverse := by
        rw [List.reverse_cons]
        unfold erase
        rw [List.filter_append]
        have h1 : List.filter (fun x : ListItem => decide (x.1 ≠ e.1)) rest.reverse =
            rest.reverse := by
          rw [List.filter_eq_self]
          intro x hx
          rw [List.mem_reverse] at hx
          simpa using (Less_ne _ _ (hp.1 x hx)).symm
        rw [h1]
        simp
      simp only [dequeueAll]
      rw [Dequeue_ok c d _ e seg hd.1 hf hu hd.2]
      simp only [her]
      rw [ih ds (by simpa using hlen) hp.2
        (fun x hx => hdec x (List.mem_cons_of_mem _ hx))
        (fun x hx => henv x (List.mem_cons_of_mem _ hx))]
      simp only [List.map_cons, decodeItem, hu]

end queue

/-! ## Runs of calls -/

namespace queue
open pb storage

theorem decodeItem_entryOf (c : Codec) (p : EnqueueEnv × InjuredSegment)
    (h : c.RoundTrips p.2) : decodeItem c (entryOf c p) = p.2 := by
  obtain ⟨val, hm, hu⟩ := h
  simp only [decodeItem, entryOf, hm, hu]

theorem unmarshal_entryOf (c : Codec) (p : EnqueueEnv × InjuredSegment)
    (h : c.RoundTrips p.2) : ∃ seg, c.Unmarshal (entryOf c p).2 = Except.ok seg := by
  obtain ⟨val, hm, hu⟩ := h
  exact ⟨p.2, by simp only [entryOf, hm, hu]⟩

/-- C2 (amended): starting from the empty store with no failure, when the clock
readings of the `Enqueue` calls are 64-bit signed values that strictly increase and
all have the same sign, enqueuing `j0..jN-1` in order and then calling `Dequeue` `N`
times returns `j0..jN-1` in that order, each without error, whatever the tokens are;
each job is one the codec round-trips. -/
theorem sequential_fifo (c : Codec) (calls : List (EnqueueEnv × InjuredSegment))
    (denvs : List DequeueEnv) (hlen : denvs.length = calls.length)
    (henq : ∀ p ∈ calls, p.1.randErr = none ∧ p.1.putErr = none)
    (hcodec : ∀ p ∈ calls, c.RoundTrips p.2)
    (hdeq : ∀ d ∈ denvs, d.listErr = none ∧ d.deleteErr = none)
    (hclock : (calls.map (fun p => p.1.now)).Pairwise (fun t1 t2 => t1 < t2))
    (hrange : ∀ p ∈ calls,
      -9223372036854775808 ≤ p.1.now ∧ p.1.now < 9223372036854775808)
    (hsign : (∀ p ∈ calls, 0 ≤ p.1.now) ∨ (∀ p ∈ calls, p.1.now < 0)) :
    (enqueueAll c calls []).1 = calls.map (fun _ => none) ∧
    (dequeueAll c denvs (enqueueAll c calls []).2).1 =
      calls.map (fun p => (p.2, none)) := by
  have h1 := enqueueAll_no_failure c calls []
    (fun p hp => ⟨(henq p hp).1, (henq p hp).2, (hcodec p hp).elim fun v hv => ⟨v, hv.1⟩⟩)
  have h2 := enqueueAll_ok c calls [] (by rw [h1]; simp)
  have hasc : (calls.map (entryOf c)).Pairwise (fun a b => Less a.1 b.1 = true) := by
    rw [List.pairwise_map]
    refine List.Pairwise.imp_of_mem ?_ (List.pairwise_map.1 hclock)
    intro p q hp hq hlt
    refine dateTime_lt _ _ _ _ hlt (hrange p hp).1 (hrange q hq).2 ?_
    rcases hsign with hs | hs
    · exact Or.inl (hs p hp)
    · exact Or.inr (hs q hq)
  have h3 := putAll_distinct (calls.map (entryOf c)) []
    (hasc.imp (fun h => Less_ne _ _ h)) (by simp)
  rw [List.append_nil] at h3
  refine ⟨h1, ?_⟩
  rw [h2, h3, dequeueAll_ascending c _ denvs (by simpa using hlen) hasc ?_ hdeq]
  · simp only [List.map_map]
    apply List.map_congr_left
    intro p hp
    simp only [Function.comp, decodeItem_entryOf c p (hcodec p hp)]
  · intro e he
    obtain ⟨p, hp, rfl⟩ := List.mem_map.1 he
    exact unmarshal_entryOf c p (hcodec p hp)

end queue

namespace queue
open pb storage

theorem sequential_fifo_witness :
    (dequeueAll sampleCodec [⟨none, none⟩, ⟨none, none⟩, ⟨none, none⟩]
      (enqueueAll sampleCodec
        [(⟨100, [7, 7, 7, 7], none, none⟩, ⟨"0", [0]⟩),
         (⟨101, [3, 3, 3, 3], none, none⟩, ⟨"1", [1]⟩),
         (⟨102, [5, 5, 5, 5], none, none⟩, ⟨"2", [2]⟩)] []).2).1 =
      [(⟨"0", [0]⟩, none), (⟨"1", [1]⟩, none), (⟨"2", [2]⟩, none)] :=
  (sequential_fifo sampleCodec
    [(⟨100, [7, 7, 7, 7], none, none⟩, ⟨"0", [0]⟩),
     (⟨101, [3, 3, 3, 3], none, none⟩, ⟨"1", [1]⟩),
     (⟨102, [5, 5, 5, 5], none, none⟩, ⟨"2", [2]⟩)]
    [⟨none, none⟩, ⟨none, none⟩, ⟨none, none⟩] rfl
    (by simp)
    (by
      intro p hp
      simp only [List.mem_cons, List.mem_singleton, List.not_mem_nil, or_false] at hp
      rcases hp with rfl | rfl | rfl <;> exact ⟨_, rfl, rfl⟩)
    (by simp)
    (by decide)
    (by simp)
    (Or.inl (by simp))).2

/-- C2 fails as stated: with the clock readings -1 and then 0, which strictly
increase, the second job is stored under the smaller key and is dequeued first. -/
theorem sequential_fifo_fails_across_zero :
    ¬ ∀ (c : Codec) (calls : List (EnqueueEnv × InjuredSegment)) (denvs : List DequeueEnv),
      denvs.length = calls.length →
      (∀ p ∈ calls, p.1.randErr = none ∧ p.1.putErr = none) →
      (∀ p ∈ calls, c.RoundTrips p.2) →
      (∀ d ∈ denvs, d.listErr = none ∧ d.deleteErr = none) →
      (calls.map (fun p => p.1.now)).Pairwise (fun t1 t2 => t1 < t2) →
      (∀ p ∈ calls,
        -9223372036854775808 ≤ p.1.now ∧ p.1.now < 9223372036854775808) →
      (enqueueAll c calls []).1 = calls.map (fun _ => none) ∧
      (dequeueAll c denvs (enqueueAll c calls []).2).1 =
        calls.map (fun p => (p.2, none)) := by
  intro h
  have h1 := h sampleCodec
    [(⟨-1, [0, 0, 0, 0], none, none⟩, ⟨"0", [0]⟩),
     (⟨0, [0, 0, 0, 0], none, none⟩, ⟨"1", [1]⟩)]
    [⟨none, none⟩, ⟨none, none⟩] rfl
    (by simp)
    (by
      intro p hp
      simp only [List.mem_cons, List.mem_singleton, List.not_mem_nil, or_false] at hp
      rcases hp with rfl | rfl <;> exact ⟨_, rfl, rfl⟩)
    (by simp)
    (by decide)
    (by simp)
  exact absurd h1.2 (by decide)

end queue

namespace queue
open pb storage

/-- C3: starting from the empty store, when `N` `Enqueue` calls, taken in whatever
order the queue lock serialises them and with arbitrary clock readings and tokens,
all return without error, and the `N` following `Dequeue` calls all return without
error, the multiset of jobs the `Dequeue` calls return equals the multiset of jobs
enqueued; each job is one the codec round-trips. -/
theorem parallel_no_loss_no_duplicate (c : Codec)
    (calls : List (EnqueueEnv × InjuredSegment)) (denvs : List DequeueEnv)
    (hlen : denvs.length = calls.length)
    (hcodec : ∀ p ∈ calls, c.RoundTrips p.2)
    (henq : ∀ e ∈ (enqueueAll c calls []).1, e = none)
    (hdeq : ∀ r ∈ (dequeueAll c denvs (enqueueAll c calls []).2).1, r.2 = none) :
    Multiset.ofList ((dequeueAll c denvs (enqueueAll c calls []).2).1.map Prod.fst) =
      Multiset.ofList (calls.map Prod.snd) := by
  have h2 := enqueueAll_ok c calls [] henq
  rw [h2] at hdeq ⊢
  have h3 := putAll_length_le (calls.map (entryOf c)) []
  have h4 := dequeueAll_length c denvs _ hdeq
  simp only [List.length_map, List.length_nil, Nat.add_zero] at h3
  have h5 : (putAll (calls.map (entryOf c)) []).length =
      (calls.map (entryOf c)).length + ([] : Store).length := by
    simp only [List.length_map, List.length_nil, Nat.add_zero]
    omega
  obtain ⟨h6, h7, _⟩ := putAll_of_length _ _ h5
  rw [List.append_nil] at h6
  have h8 : (putAll (calls.map (entryOf c)) []).Pairwise (fun a b => a.1 ≠ b.1) := by
    rw [h6, List.pairwise_reverse]
    exact h7.imp (fun h => h.symm)
  obtain ⟨taken, ht1, ht2, _⟩ := dequeueAll_perm c denvs _ h8 hdeq
  have h9 : (dequeueAll c denvs (putAll (calls.map (entryOf c)) [])).2 = [] := by
    apply List.eq_nil_of_length_eq_zero
    omega
  rw [h9, List.append_nil, h6] at ht1
  rw [ht2]
  apply Multiset.coe_eq_coe.2
  have h10 : List.Perm (taken.map (decodeItem c))
      ((calls.map (entryOf c)).map (decodeItem c)) :=
    (ht1.symm.trans (List.reverse_perm _)).map _
  refine h10.trans (List.Perm.of_eq ?_)
  rw [List.map_map]
  apply List.map_congr_left
  intro p hp
  simp only [Function.comp, decodeItem_entryOf c p (hcodec p hp)]

theorem parallel_no_loss_no_duplicate_witness :
    Multiset.ofList
      ((dequeueAll sampleCodec [⟨none, none⟩, ⟨none, none⟩, ⟨none, none⟩]
        (enqueueAll sampleCodec
          [(⟨100, [7, 7, 7, 7], none, none⟩, ⟨"2", [2]⟩),
           (⟨100, [3, 3, 3, 3], none, none⟩, ⟨"0", [0]⟩),
           (⟨99, [5, 5, 5, 5], none, none⟩, ⟨"1", [1]⟩)] []).2).1.map Prod.fst) =
      Multiset.ofList [⟨"2", [2]⟩, ⟨"0", [0]⟩, ⟨"1", [1]⟩] :=
  parallel_no_loss_no_duplicate sampleCodec
    [(⟨100, [7, 7, 7, 7], none, none⟩, ⟨"2", [2]⟩),
     (⟨100, [3, 3, 3, 3], none, none⟩, ⟨"0", [0]⟩),
     (⟨99, [5, 5, 5, 5], none, none⟩, ⟨"1", [1]⟩)]
    [⟨none, none⟩, ⟨none, none⟩, ⟨none, none⟩] rfl
    (by
      intro p hp
      simp only [List.mem_cons, List.mem_singleton, List.not_mem_nil, or_false] at hp
      rcases hp with rfl | rfl | rfl <;> exact ⟨_, rfl, rfl⟩)
    (by decide)
    (by decide)

end queue

/-! ## The key layout -/

namespace queue
open pb storage

theorem PutUint64_length (v : Nat) : (PutUint64 v).length = 8 := rfl

theorem PutUint64_byte (v : Nat) : ∀ x ∈ PutUint64 v, x < 256 := by
  intro x hx
  simp only [PutUint64, List.mem_cons, List.mem_singleton, List.not_mem_nil, or_false] at hx
  rcases hx with h | h | h | h | h | h | h | h <;> rw [h] <;> exact Nat.mod_lt _ (by decide)

theorem Uint64_PutUint64 (v : Nat) : Uint64 (PutUint64 v) = v % 2 ^ 64 := by
  rw [PutUint64_digits]
  have h8 : v / 256 / 256 / 256 / 256 / 256 / 256 / 256 / 256 = v / 2 ^ 64 := by
    simp only [Nat.div_div_eq_div_mul]
    norm_num
  simp only [Uint64, List.foldl]
  norm_num at h8 ⊢
  omega

theorem toUint64_cast (t : Int) : (toUint64 t : Int) = t % 18446744073709551616 := by
  unfold toUint64
  omega

theorem toUint64_lt_pow (t : Int) : toUint64 t < 2 ^ 64 := by
  unfold toUint64
  omega

theorem take_dateTime (t : Int) (r : Bytes) :
    (dateTime t r).take 8 = PutUint64 (toUint64 t) := by
  simp [dateTime, PutUint64]

theorem drop_dateTime (t : Int) (r : Bytes) : (dateTime t r).drop 8 = r := by
  simp [dateTime, PutUint64]

theorem Enqueue_put_key (c : Codec) (env : EnqueueEnv) (qi : InjuredSegment) (db : Store)
    (key val : Bytes) (h : Call.Put key val ∈ (Enqueue c env qi db).calls) :
    key = dateTime env.now env.token ∧ c.Marshal qi = Except.ok val := by
  cases hr : env.randErr with
  | some e1 => rw [Enqueue_randErr c env qi db e1 hr] at h; cases h
  | none =>
    cases hm : c.Marshal qi with
    | error e1 => rw [Enqueue_marshalErr c env qi db e1 hr hm] at h; cases h
    | ok val1 =>
      cases hp : env.putErr with
      | some e1 =>
        rw [Enqueue_putErr c env qi db val1 e1 hr hm hp] at h
        simp only [List.mem_singleton, Call.Put.injEq] at h
        exact ⟨h.1, by rw [h.2]⟩
      | none =>
        rw [Enqueue_ok c env qi db val1 hr hm hp] at h
        simp only [List.mem_singleton, Call.Put.injEq] at h
        exact ⟨h.1, by rw [h.2]⟩

/-- C11: for every clock reading `t` and every 4-byte token `r`, the key `Enqueue`
writes under has exactly 12 bytes; its first 8 bytes are the big-endian encoding of
`t mod 2^64` (eight bytes below 256 whose base-256 value is `t mod 2^64`) and its
last 4 bytes are `r`; reading the first 8 bytes big-endian gives `t` back for every
non-negative `t` (below `2^64`, as every 64-bit reading is). -/
theorem enqueue_key_layout (c : Codec) (env : EnqueueEnv) (qi : InjuredSegment)
    (db : Store) (key val : Bytes) (hr : env.token.length = 4)
    (h : Call.Put key val ∈ (Enqueue c env qi db).calls) :
    key.length = 12 ∧
    key.take 8 = PutUint64 (toUint64 env.now) ∧
    key.drop 8 = env.token ∧
    (∀ x ∈ key.take 8, x < 256) ∧
    (Uint64 (key.take 8) : Int) = env.now % 2 ^ 64 ∧
    (0 ≤ env.now → env.now < 2 ^ 64 → (Uint64 (key.take 8) : Int) = env.now) := by
  have hk := (Enqueue_put_key c env qi db key val h).1
  have h1 : (Uint64 (key.take 8) : Int) = env.now % 2 ^ 64 := by
    rw [hk, take_dateTime, Uint64_PutUint64, Nat.mod_eq_of_lt (toUint64_lt_pow _),
      toUint64_cast]
    norm_num
  refine ⟨?_, ?_, ?_, ?_, h1, ?_⟩
  · rw [hk]
    simp only [dateTime, List.length_append, PutUint64_length, hr]
  · rw [hk, take_dateTime]
  · rw [hk, drop_dateTime]
  · rw [hk, take_dateTime]
    exact PutUint64_byte _
  · intro h0 hlt
    rw [h1]
    exact Int.emod_eq_of_lt h0 hlt

theorem enqueue_key_layout_witness :
    (Enqueue sampleCodec ⟨1536000000000000000, [1, 2, 3, 4], none, none⟩ ⟨"abc", []⟩
      []).calls = [Call.Put [21, 80, 247, 220, 167, 0, 0, 0, 1, 2, 3, 4] [3, 97, 98, 99]] ∧
    Uint64 (List.take 8 [21, 80, 247, 220, 167, 0, 0, 0, 1, 2, 3, 4]) =
      1536000000000000000 :=
  ⟨rfl, Int.ofNat.inj
    ((enqueue_key_layout sampleCodec ⟨1536000000000000000, [1, 2, 3, 4], none, none⟩
      ⟨"abc", []⟩ [] [21, 80, 247, 220, 167, 0, 0, 0, 1, 2, 3, 4] [3, 97, 98, 99] rfl
      (by decide)).2.2.2.2.2 (by decide) (by decide))⟩

end queue

namespace queue
open pb storage

theorem Less_append_left (p x y : Bytes) : Less (p ++ x) (p ++ y) = Less x y := by
  induction p with
  | nil => rfl
  | cons a rest ih =>
    show Less (a :: (rest ++ x)) (a :: (rest ++ y)) = Less x y
    simp only [Less, Nat.lt_irrefl, if_false, ih]

theorem toUint64_of_nonneg (t : Int) (h0 : 0 ≤ t) (hhi : t < 2 ^ 64) :
    (toUint64 t : Int) = t := by
  rw [toUint64_cast]
  exact Int.emod_eq_of_lt h0 (by norm_num at hhi ⊢; exact hhi)

/-- C12: keys are ordered by creation time.  For non-negative clock readings
`t1 < t2` (below `2^64`, as every 64-bit reading is) and all tokens `r1`, `r2`, the
key built from `(t1, r1)` is strictly smaller in byte-wise lexicographic order than
the key built from `(t2, r2)`; when `t1 = t2` the two keys are ordered as the tokens
`r1` and `r2` are. -/
theorem key_order_by_time (t1 t2 : Int) (r1 r2 : Bytes) (h0 : 0 ≤ t1)
    (hhi : t2 < 2 ^ 64) :
    (t1 < t2 → Less (dateTime t1 r1) (dateTime t2 r2) = true) ∧
    (t1 = t2 → Less (dateTime t1 r1) (dateTime t2 r2) = Less r1 r2 ∧
      Less (dateTime t2 r2) (dateTime t1 r1) = Less r2 r1) := by
  constructor
  · intro hlt
    have h1 := toUint64_of_nonneg t1 h0 (lt_trans hlt hhi)
    have h2 := toUint64_of_nonneg t2 (le_trans h0 (le_of_lt hlt)) hhi
    have h3 : toUint64 t1 < toUint64 t2 := by
      have : (toUint64 t1 : Int) < (toUint64 t2 : Int) := by rw [h1, h2]; exact hlt
      exact Int.ofNat_lt.1 this
    exact PutUint64_lt _ _ r1 r2 h3 (toUint64_lt_pow t2)
  · intro heq
    rw [heq]
    exact ⟨Less_append_left _ _ _, Less_append_left _ _ _⟩

theorem key_order_by_time_witness :
    Less (dateTime 1536000000000000000 [255, 255, 255, 255])
      (dateTime 1536000000000000001 [0, 0, 0, 0]) = true :=
  (key_order_by_time 1536000000000000000 1536000000000000001 [255, 255, 255, 255]
    [0, 0, 0, 0] (by decide) (by decide)).1 (by decide)

theorem dateTime_inj (t : Int) (r1 r2 : Bytes) : dateTime t r1 = dateTime t r2 ↔ r1 = r2 := by
  unfold dateTime
  exact ⟨fun h => List.append_cancel_left h, fun h => by rw [h]⟩

/-- C13 (amended): for two `Enqueue` calls that read the same clock value, the keys
they write under differ exactly when their tokens differ; with equal tokens the
keys are equal. -/
theorem same_tick_keys_differ_iff (c : Codec) (env1 env2 : EnqueueEnv)
    (qi1 qi2 : InjuredSegment) (db1 db2 : Store) (k1 v1 k2 v2 : Bytes)
    (h1 : Call.Put k1 v1 ∈ (Enqueue c env1 qi1 db1).calls)
    (h2 : Call.Put k2 v2 ∈ (Enqueue c env2 qi2 db2).calls)
    (ht : env1.now = env2.now) :
    k1 ≠ k2 ↔ env1.token ≠ env2.token := by
  rw [(Enqueue_put_key c env1 qi1 db1 k1 v1 h1).1,
    (Enqueue_put_key c env2 qi2 db2 k2 v2 h2).1, ht]
  exact not_congr (dateTime_inj _ _ _)

theorem same_tick_keys_differ_iff_witness :
    ([0, 0, 0, 0, 0, 0, 0, 7, 1, 2, 3, 4] : Bytes) ≠ [0, 0, 0, 0, 0, 0, 0, 7, 1, 2, 3, 5] ↔
      ([1, 2, 3, 4] : Bytes) ≠ [1, 2, 3, 5] :=
  same_tick_keys_differ_iff sampleCodec ⟨7, [1, 2, 3, 4], none, none⟩
    ⟨7, [1, 2, 3, 5], none, none⟩ ⟨"a", []⟩ ⟨"b", []⟩ [] []
    [0, 0, 0, 0, 0, 0, 0, 7, 1, 2, 3, 4] [1, 97] [0, 0, 0, 0, 0, 0, 0, 7, 1, 2, 3, 5] [1, 98]
    (by decide) (by decide) rfl

/-- C13 fails as stated: two `Enqueue` calls in the same clock tick that draw the
same token write under the same key. -/
theorem same_tick_keys_can_collide :
    ¬ ∀ (c : Codec) (env1 env2 : EnqueueEnv) (qi1 qi2 : InjuredSegment)
      (db1 db2 : Store) (k1 v1 k2 v2 : Bytes),
      Call.Put k1 v1 ∈ (Enqueue c env1 qi1 db1).calls →
      Call.Put k2 v2 ∈ (Enqueue c env2 qi2 db2).calls →
      env1.now = env2.now → k1 ≠ k2 := by
  intro h
  exact h sampleCodec ⟨7, [1, 2, 3, 4], none, none⟩ ⟨7, [1, 2, 3, 4], none, none⟩
    ⟨"a", []⟩ ⟨"b", []⟩ [] [([0, 0, 0, 0, 0, 0, 0, 7, 1, 2, 3, 4], [1, 97])]
    [0, 0, 0, 0, 0, 0, 0, 7, 1, 2, 3, 4] [1, 97] [0, 0, 0, 0, 0, 0, 0, 7, 1, 2, 3, 4] [1, 98]
    (by decide) (by decide) rfl rfl

end queue

/-! ## Sequences of calls -/

namespace queue
open pb storage

theorem Enqueue_db (c : Codec) (env : EnqueueEnv) (qi : InjuredSegment) (db : Store) :
    (Enqueue c env qi db).db = db ∨
    ∃ val, c.Marshal qi = Except.ok val ∧
      (Enqueue c env qi db).db = insert db (dateTime env.now env.token) val := by
  cases hr : env.randErr with
  | some e1 => rw [Enqueue_randErr c env qi db e1 hr]; exact Or.inl rfl
  | none =>
    cases hm : c.Marshal qi with
    | error e1 => rw [Enqueue_marshalErr c env qi db e1 hr hm]; exact Or.inl rfl
    | ok val =>
      cases hp : env.putErr with
      | some e1 => rw [Enqueue_putErr c env qi db val e1 hr hm hp]; exact Or.inl rfl
      | none => rw [Enqueue_ok c env qi db val hr hm hp]; exact Or.inr ⟨val, rfl, rfl⟩

theorem Dequeue_db (c : Codec) (env : DequeueEnv) (db : Store) :
    (Dequeue c env db).db = db ∨ ∃ k, (Dequeue c env db).db = erase db k := by
  cases hl : env.listErr with
  | some e1 => rw [Dequeue_listErr c env db e1 hl]; exact Or.inl rfl
  | none =>
    cases hf : first db with
    | none => rw [Dequeue_empty c env db hl hf]; exact Or.inl rfl
    | some item =>
      cases hu : c.Unmarshal item.2 with
      | error e1 => rw [Dequeue_unmarshalErr c env db item e1 hl hf hu]; exact Or.inl rfl
      | ok seg =>
        cases hd : env.deleteErr with
        | some e1 => rw [Dequeue_deleteErr c env db item seg e1 hl hf hu hd]; exact Or.inl rfl
        | none => rw [Dequeue_ok c env db item seg hl hf hu hd]; exact Or.inr ⟨item.1, rfl⟩

theorem WellFormed_erase (c : Codec) (db : Store) (k : Bytes) (h : WellFormed c db) :
    WellFormed c (erase db k) :=
  fun e he => h e ((mem_erase db k e).1 he).1

theorem WellFormed_insert (c : Codec) (db : Store) (k v : Bytes) (h : WellFormed c db)
    (hk : k.length = 12) (hv : ∃ seg, c.Unmarshal v = Except.ok seg) :
    WellFormed c (insert db k v) := by
  intro e he
  rcases List.mem_cons.1 he with he | he
  · rw [he]; exact ⟨hk, hv⟩
  · exact WellFormed_erase c db k h e he

theorem dateTime_length (t : Int) (r : Bytes) (hr : r.length = 4) :
    (dateTime t r).length = 12 := by
  simp only [dateTime, List.length_append, PutUint64_length, hr]

theorem WellFormed_step (c : Codec) (db : Store) (op : Op) (hop : op.Regular c)
    (h : WellFormed c db) : WellFormed c (step c db op) := by
  cases op with
  | enqueue env qi =>
    simp only [step]
    rcases Enqueue_db c env qi db with h1 | ⟨val, hm, h1⟩
    · rw [h1]; exact h
    · rw [h1]
      exact WellFormed_insert c db _ val h (dateTime_length _ _ hop.1) (hop.2 val hm)
  | dequeue env =>
    simp only [step]
    rcases Dequeue_db c env db with h1 | ⟨k, h1⟩
    · rw [h1]; exact h
    · rw [h1]; exact WellFormed_erase c db k h

theorem WellFormed_run (c : Codec) (ops : List Op) (db : Store)
    (hops : ∀ op ∈ ops, op.Regular c) (h : WellFormed c db) :
    WellFormed c (run c ops db) := by
  induction ops generalizing db with
  | nil => exact h
  | cons op rest ih =>
    simp only [run]
    exact ih _ (fun o ho => hops o (List.mem_cons_of_mem _ ho))
      (WellFormed_step c db op (hops op (List.mem_cons_self _ _)) h)

theorem queueError_ne (p1 p2 e1 e2 : String) (n : Nat) (h1 : n ≤ p1.data.length)
    (h2 : n ≤ p2.data.length) (hne : p1.data.take n ≠ p2.data.take n) :
    queueError (p1 ++ e1) ≠ queueError (p2 ++ e2) := by
  intro h
  have h3 := congrArg (fun s => s.data.take n) (queueError_inj _ _ h)
  simp only [String.data_append] at h3
  rw [List.take_append_of_le_length h1, List.take_append_of_le_length h2] at h3
  exact hne h3

theorem Dequeue_wellFormed_err (c : Codec) (env : DequeueEnv) (db : Store)
    (h : WellFormed c db) (e : String) :
    (Dequeue c env db).err ≠ some (queueError ("error unmarshalling segment " ++ e)) := by
  cases hl : env.listErr with
  | some e1 =>
    rw [Dequeue_listErr c env db e1 hl]
    intro h1
    exact queueError_ne "error getting first key " "error unmarshalling segment " e1 e 7
      (by decide) (by decide) (by decide) (Option.some.inj h1)
  | none =>
    cases hf : first db with
    | none =>
      rw [Dequeue_empty c env db hl hf]
      intro h1
      exact emptyQueue_ne "error unmarshalling segment " e rfl (Option.some.inj h1)
    | some item =>
      obtain ⟨seg, hu⟩ := (h item (first_mem db item hf)).2
      cases hd : env.deleteErr with
      | some e1 =>
        rw [Dequeue_deleteErr c env db item seg e1 hl hf hu hd]
        intro h1
        exact queueError_ne "error removing injured seg " "error unmarshalling segment "
          e1 e 7 (by decide) (by decide) (by decide) (Option.some.inj h1)
      | none =>
        rw [Dequeue_ok c env db item seg hl hf hu hd]
        intro h1
        cases h1

/-- C15: store well-formedness (every key has 12 bytes, every value unmarshals to a
job record) is kept by every `Enqueue` and every `Dequeue`, whether the call
succeeds or fails; so after any sequence of calls from the empty store the store is
well-formed and a `Dequeue` does not return the unmarshalling error.  The token
buffer holds 4 bytes and the bytes a job marshals to unmarshal. -/
theorem wellFormed_invariant (c : Codec) :
    (∀ (db : Store) (op : Op), op.Regular c → WellFormed c db →
      WellFormed c (step c db op)) ∧
    (∀ ops : List Op, (∀ op ∈ ops, op.Regular c) →
      WellFormed c (run c ops []) ∧
      ∀ (denv : DequeueEnv) (e : String),
        (Dequeue c denv (run c ops [])).err ≠
          some (queueError ("error unmarshalling segment " ++ e))) := by
  refine ⟨fun db op hop h => WellFormed_step c db op hop h, fun ops hops => ?_⟩
  have h : WellFormed c (run c ops []) :=
    WellFormed_run c ops [] hops (fun e he => absurd he (List.not_mem_nil e))
  exact ⟨h, fun denv e => Dequeue_wellFormed_err c denv _ h e⟩

theorem wellFormed_invariant_witness :
    WellFormed sampleCodec
      (run sampleCodec
        [Op.enqueue ⟨7, [1, 2, 3, 4], none, none⟩ ⟨"a", [1]⟩,
         Op.dequeue ⟨none, some "connection lost"⟩,
         Op.enqueue ⟨8, [1, 2, 3, 4], none, some "connection lost"⟩ ⟨"b", [2]⟩] []) :=
  ((wellFormed_invariant sampleCodec).2
    [Op.enqueue ⟨7, [1, 2, 3, 4], none, none⟩ ⟨"a", [1]⟩,
     Op.dequeue ⟨none, some "connection lost"⟩,
     Op.enqueue ⟨8, [1, 2, 3, 4], none, some "connection lost"⟩ ⟨"b", [2]⟩]
    (by
      intro op hop
      simp only [List.mem_cons, List.mem_singleton, List.not_mem_nil, or_false] at hop
      rcases hop with rfl | rfl | rfl
      · refine ⟨rfl, fun val hv => ?_⟩
        cases hv
        exact ⟨_, rfl⟩
      · trivial
      · refine ⟨rfl, fun val hv => ?_⟩
        cases hv
        exact ⟨_, rfl⟩)).1

end queue

namespace queue
open pb storage

/-- C16: `Enqueue` does not check whether its key is already present.  When two
successful `Enqueue` calls on the empty store read the same clock value and draw
the same token, the second overwrites the first: the store holds the single entry
whose value is the marshalled second job, the first following `Dequeue` returns the
second job, and the next one returns the empty-queue error, so the first job is
not delivered although both `Enqueue` calls returned nil. -/
theorem colliding_enqueue_overwrites (c : Codec) (j1 j2 : InjuredSegment) (t : Int)
    (r val1 val2 : Bytes) (denv1 denv2 : DequeueEnv)
    (hm1 : c.Marshal j1 = Except.ok val1) (hm2 : c.Marshal j2 = Except.ok val2)
    (hu2 : c.Unmarshal val2 = Except.ok j2)
    (hl1 : denv1.listErr = none) (hd1 : denv1.deleteErr = none)
    (hl2 : denv2.listErr = none) :
    enqueueAll c [(⟨t, r, none, none⟩, j1), (⟨t, r, none, none⟩, j2)] [] =
      ([none, none], [(dateTime t r, val2)]) ∧
    dequeueAll c [denv1, denv2] [(dateTime t r, val2)] =
      ([(j2, none), (InjuredSegment.zero, some (queueError "empty database"))], []) := by
  constructor
  · simp only [enqueueAll]
    rw [Enqueue_ok c ⟨t, r, none, none⟩ j1 [] val1 rfl hm1 rfl]
    simp only []
    rw [Enqueue_ok c ⟨t, r, none, none⟩ j2 _ val2 rfl hm2 rfl]
    simp [storage.insert, erase]
  · have hf : first [(dateTime t r, val2)] = some (dateTime t r, val2) := rfl
    simp only [dequeueAll]
    rw [Dequeue_ok c denv1 _ (dateTime t r, val2) j2 hl1 hf hu2 hd1]
    simp only [erase_singleton]
    rw [Dequeue_empty c denv2 [] hl2 rfl]

theorem colliding_enqueue_overwrites_witness :
    (⟨"a", [1]⟩ : InjuredSegment) ≠ ⟨"b", [2]⟩ ∧
    enqueueAll sampleCodec
      [(⟨7, [1, 2, 3, 4], none, none⟩, ⟨"a", [1]⟩),
       (⟨7, [1, 2, 3, 4], none, none⟩, ⟨"b", [2]⟩)] [] =
      ([none, none], [(dateTime 7 [1, 2, 3, 4], [1, 98, 2])]) ∧
    dequeueAll sampleCodec [⟨none, none⟩, ⟨none, none⟩]
      [(dateTime 7 [1, 2, 3, 4], [1, 98, 2])] =
      ([(⟨"b", [2]⟩, none), (InjuredSegment.zero, some (queueError "empty database"))],
        []) :=
  ⟨by decide,
    colliding_enqueue_overwrites sampleCodec ⟨"a", [1]⟩ ⟨"b", [2]⟩ 7 [1, 2, 3, 4]
      [1, 97, 1] [1, 98, 2] ⟨none, none⟩ ⟨none, none⟩ rfl rfl rfl rfl rfl rfl⟩

theorem blocked_step (c : Codec) (db : Store) (key val : Bytes) (e : String) (op : Op)
    (hget : get db key = some val) (hmin : ∀ x ∈ db, Less x.1 key = false)
    (hu : c.Unmarshal val = Except.error e) (hop : op.Behind key) :
    get (step c db op) key = some val ∧ ∀ x ∈ step c db op, Less x.1 key = false := by
  cases op with
  | enqueue env qi =>
    simp only [step]
    rcases Enqueue_db c env qi db with h1 | ⟨v, _, h1⟩
    · rw [h1]; exact ⟨hget, hmin⟩
    · rw [h1]
      have hlt : Less key (dateTime env.now env.token) = true := hop
      refine ⟨?_, ?_⟩
      · rw [get_insert_ne db _ v key (Less_ne _ _ hlt)]
        exact hget
      · intro x hx
        rcases List.mem_cons.1 hx with hx | hx
        · rw [hx]; exact Less_asymm _ _ hlt
        · exact hmin x ((mem_erase db _ x).1 hx).1
  | dequeue env =>
    simp only [step]
    have hf := first_of_smallest db key val hget hmin
    cases hl : env.listErr with
    | some e1 => rw [Dequeue_listErr c env db e1 hl]; exact ⟨hget, hmin⟩
    | none => rw [Dequeue_unmarshalErr c env db (key, val) e hl hf hu]; exact ⟨hget, hmin⟩

theorem blocked_run (c : Codec) (ops : List Op) (db : Store) (key val : Bytes) (e : String)
    (hget : get db key = some val) (hmin : ∀ x ∈ db, Less x.1 key = false)
    (hu : c.Unmarshal val = Except.error e) (hops : ∀ op ∈ ops, op.Behind key) :
    get (run c ops db) key = some val ∧ ∀ x ∈ run c ops db, Less x.1 key = false := by
  induction ops generalizing db with
  | nil => exact ⟨hget, hmin⟩
  | cons op rest ih =>
    have h := blocked_step c db key val e op hget hmin hu (hops op (List.mem_cons_self _ _))
    simp only [run]
    exact ih _ h.1 h.2 (fun o ho => hops o (List.mem_cons_of_mem _ ho))

/-- C17 (amended): an entry at the head that does not unmarshal blocks the queue.
When the value under the smallest key of the store does not unmarshal, then after any
sequence of further calls, `Dequeue` calls and `Enqueue` calls whose keys are larger
than that key, the key is still the smallest and still maps to that value, and
every `Dequeue` whose listing succeeds returns the zero-value job and the
unmarshalling error and leaves the store as it is. -/
theorem undecodable_head_blocks (c : Codec) (db : Store) (key val : Bytes) (e : String)
    (ops : List Op) (hget : get db key = some val)
    (hmin : ∀ x ∈ db, Less x.1 key = false) (hu : c.Unmarshal val = Except.error e)
    (hops : ∀ op ∈ ops, op.Behind key) :
    get (run c ops db) key = some val ∧
    (∀ x ∈ run c ops db, Less x.1 key = false) ∧
    ∀ denv : DequeueEnv, denv.listErr = none →
      (Dequeue c denv (run c ops db)).seg = InjuredSegment.zero ∧
      (Dequeue c denv (run c ops db)).err =
        some (queueError ("error unmarshalling segment " ++ e)) ∧
      (Dequeue c denv (run c ops db)).db = run c ops db := by
  have h := blocked_run c ops db key val e hget hmin hu hops
  refine ⟨h.1, h.2, fun denv hl => ?_⟩
  have hf := first_of_smallest _ key val h.1 h.2
  rw [Dequeue_unmarshalErr c denv _ (key, val) e hl hf hu]
  exact ⟨rfl, rfl, rfl⟩

theorem undecodable_head_blocks_witness :
    (Dequeue sampleCodec ⟨none, none⟩
      (run sampleCodec
        [Op.enqueue ⟨7, [1, 2, 3, 4], none, none⟩ ⟨"a", [1]⟩,
         Op.dequeue ⟨none, none⟩,
         Op.enqueue ⟨8, [1, 2, 3, 4], none, none⟩ ⟨"b", [2]⟩]
        [([0, 0, 0, 0, 0, 0, 0, 5, 1, 2, 3, 4], [200])])).err =
      some (queueError ("error unmarshalling segment " ++ "illegal byte")) :=
  ((undecodable_head_blocks sampleCodec [([0, 0, 0, 0, 0, 0, 0, 5, 1, 2, 3, 4], [200])]
    [0, 0, 0, 0, 0, 0, 0, 5, 1, 2, 3, 4] [200] "illegal byte"
    [Op.enqueue ⟨7, [1, 2, 3, 4], none, none⟩ ⟨"a", [1]⟩,
     Op.dequeue ⟨none, none⟩,
     Op.enqueue ⟨8, [1, 2, 3, 4], none, none⟩ ⟨"b", [2]⟩]
    rfl (by decide) rfl
    (by
      intro op hop
      simp only [List.mem_cons, List.mem_singleton, List.not_mem_nil, or_false] at hop
      rcases hop with rfl | rfl | rfl
      · show Less _ _ = true
        decide
      · trivial
      · show Less _ _ = true
        decide)).2.2 ⟨none, none⟩ rfl).2.1

/-- C17 fails as stated: on a store whose head does not unmarshal, a `Dequeue`
whose listing fails returns the listing error, not the unmarshalling error. -/
theorem undecodable_head_listing_failure :
    ¬ ∀ (c : Codec) (db : Store) (key val : Bytes) (e : String) (ops : List Op),
      get db key = some val → (∀ x ∈ db, Less x.1 key = false) →
      c.Unmarshal val = Except.error e → (∀ op ∈ ops, op.Behind key) →
      ∀ denv : DequeueEnv,
        (Dequeue c denv (run c ops db)).seg = InjuredSegment.zero ∧
        (Dequeue c denv (run c ops db)).err =
          some (queueError ("error unmarshalling segment " ++ e)) := by
  intro h
  have h1 := h sampleCodec [([0, 0, 0, 0, 0, 0, 0, 5, 1, 2, 3, 4], [200])]
    [0, 0, 0, 0, 0, 0, 0, 5, 1, 2, 3, 4] [200] "illegal byte" [] rfl (by decide) rfl
    (by simp) ⟨some "internal error", none⟩
  exact absurd h1.2 (by decide)

end queue

/-! ## The satellite authenticator -/

namespace auth

/-- C18: the satellite authenticator gates only methods whose full name starts with
"/pointerdb".  For a method without that prefix the handler is called and its
result returned unchanged, with no API-key validation and no signature generation.
For a method with the prefix the handler is called exactly when the joined "apikey"
metadata validates and the response generator succeeds; with no metadata or an
invalid key the result is nil with an Unauthenticated error and the generator is
not run, with a failing generator it is nil with an Internal error, and the key is
validated before the generator is run. -/
theorem authenticator_gates_pointerdb {Resp : Type} (ValidateAPIKey : String → Bool)
    (Generate : Option String) (md : Option (String → List String))
    (FullMethod : String) (handler : Option Resp × Option Error) :
    (HasPrefix FullMethod "/pointerdb" = false →
      NewSatelliteAuthenticator ValidateAPIKey Generate md FullMethod handler =
        (handler, [Event.Handler])) ∧
    (HasPrefix FullMethod "/pointerdb" = true →
      (Event.Handler ∈
          (NewSatelliteAuthenticator ValidateAPIKey Generate md FullMethod handler).2 ↔
        (∃ m, md = some m ∧ ValidateAPIKey (Join (m "apikey")) = true) ∧
          Generate = none) ∧
      (md = none →
        NewSatelliteAuthenticator ValidateAPIKey Generate md FullMethod handler =
          ((none, some (Error.status Code.Unauthenticated "Invalid API credential")),
            [])) ∧
      (∀ m, md = some m → ValidateAPIKey (Join (m "apikey")) = false →
        NewSatelliteAuthenticator ValidateAPIKey Generate md FullMethod handler =
          ((none, some (Error.status Code.Unauthenticated "Invalid API credential")),
            [Event.ValidateAPIKey (Join (m "apikey"))])) ∧
      (∀ m err, md = some m → ValidateAPIKey (Join (m "apikey")) = true →
        Generate = some err →
        NewSatelliteAuthenticator ValidateAPIKey Generate md FullMethod handler =
          ((none, some (Error.status Code.Internal err)),
            [Event.ValidateAPIKey (Join (m "apikey")), Event.Generate])) ∧
      (∀ m, md = some m → ValidateAPIKey (Join (m "apikey")) = true → Generate = none →
        NewSatelliteAuthenticator ValidateAPIKey Generate md FullMethod handler =
          (handler,
            [Event.ValidateAPIKey (Join (m "apikey")), Event.Generate,
              Event.Handler]))) := by
  refine ⟨fun hp => by simp [NewSatelliteAuthenticator, hp], fun hp => ?_⟩
  refine ⟨?_, ?_, ?_, ?_, ?_⟩
  · cases md with
    | none => simp [NewSatelliteAuthenticator, hp]
    | some m =>
      cases hv : ValidateAPIKey (Join (m "apikey")) with
      | false => simp [NewSatelliteAuthenticator, hp, hv]
      | true =>
        cases Generate with
        | none => simp [NewSatelliteAuthenticator, hp, hv]
        | some err => simp [NewSatelliteAuthenticator, hp, hv]
  · intro hm
    simp [NewSatelliteAuthenticator, hp, hm]
  · intro m hm hv
    simp [NewSatelliteAuthenticator, hp, hm, hv]
  · intro m err hm hv hg
    simp [NewSatelliteAuthenticator, hp, hm, hv, hg]
  · intro m hm hv hg
    simp [NewSatelliteAuthenticator, hp, hm, hv, hg]

theorem authenticator_gates_pointerdb_witness :
    NewSatelliteAuthenticator (fun key => key == "secret") none
      (some (fun k => if k = "apikey" then ["sec", "ret"] else []))
      "/pointerdb.PointerDB/Get" ((some 1, none) : Option Nat × Option Error) =
      ((some 1, none), [Event.ValidateAPIKey "secret", Event.Generate, Event.Handler]) ∧
    NewSatelliteAuthenticator (fun key => key == "secret") none none "/overlay.Overlay/Lookup"
      ((some 1, none) : Option Nat × Option Error) = ((some 1, none), [Event.Handler]) :=
  ⟨((authenticator_gates_pointerdb (fun key => key == "secret") none
      (some (fun k => if k = "apikey" then ["sec", "ret"] else []))
      "/pointerdb.PointerDB/Get" ((some 1, none) : Option Nat × Option Error)).2
      (by decide)).2.2.2.2 _ rfl (by decide) rfl,
    (authenticator_gates_pointerdb (fun key => key == "secret") none none
      "/overlay.Overlay/Lookup" ((some 1, none) : Option Nat × Option Error)).1
      (by decide)⟩

end auth
